import Mathlib

/-!
Verification of the DataBroker asset-registry layer (filestore).

This file embeds, as executable Lean definitions, the parts of the
repository that the checked claims are about:

* the path-splitting arithmetic of `FileStore.shift_root`
  (`databroker/_fs/filestore/fs.py`),
* the JSON value codec used by the SQLite collection backend
  (`databroker/_fs/portable_fs/sqlite/fs.py`),
* the SQLite-backed collection operations (insert / find / replace),
* a state-machine embedding of `FileStoreRO` / `FileStore` /
  `FileStoreMoving` (handler registry and caches, `get_spec_handler`,
  `retrieve`, `shift_root`, `copy_files`, `change_root`, `get_history`,
  `handler_context`).

Python strings are modelled as `List Char` (named `PStr`) where path
character arithmetic matters, and as `String` elsewhere.  Machine-level
concerns (real databases, the posix filesystem) are modelled as explicit
state: collections are lists of records, the filesystem is a list of
paths, and database / filesystem effects are recorded in an event trace.
-/

/-! ## Path primitives

`os.sep` is `/` (posix).  `segsOf` models
`[_ for _ in s.split(os.sep) if _]` from `shift_root`;
`safeJoin` models the local `safe_join` helper
(`os.path.join(*inp)` over separator-free segments, empty string for an
empty list); `pyJoin` models two-argument `posixpath.join`. -/

abbrev PStr := List Char

def psep : Char := '/'

/-- Auxiliary splitter: `splitAux cs acc` splits `cs` at every separator,
with `acc` holding the (reversed) characters of the current segment.
Models Python `str.split('/')`, which keeps empty pieces. -/
def splitAux : PStr → PStr → List PStr
  | [], acc => [acc.reverse]
  | c :: cs, acc =>
      if c = psep then acc.reverse :: splitAux cs []
      else splitAux cs (c :: acc)

/-- `[_ for _ in s.split(os.sep) if _]` : the nonempty separator-separated
segments of a path. -/
def segsOf (cs : PStr) : List PStr :=
  (splitAux cs []).filter (fun s => s ≠ [])

/-- `safe_join` from `FileStore.shift_root`: empty string for no segments,
otherwise `os.path.join(*inp)` (separator-interleaved concatenation, the
segments being separator-free and nonempty). -/
def safeJoin : List PStr → PStr
  | [] => []
  | [x] => x
  | x :: y :: rest => x ++ psep :: safeJoin (y :: rest)

/-- Two-argument `posixpath.join(a, b)`:
`b` if `b` is absolute, `a ++ b` if `a` is empty or ends in the
separator, otherwise `a ++ "/" ++ b`. -/
def pyJoin (a b : PStr) : PStr :=
  if b.head? = some psep then b
  else if a = [] then b
  else if a.getLast? = some psep then a ++ b
  else a ++ psep :: b

/-- Re-joining a `(root, resource_path)` pair into one path, as
`get_spec_handler` does before handing the path to a handler:
`os.path.join(root, rpath)` guarded so that an empty component is
returned unchanged (`if root: rpath = os.path.join(root, rpath)`). -/
def rejoin (root rpath : PStr) : PStr :=
  if rpath = [] then root else pyJoin root rpath

/-- Output of the path computation inside `FileStore.shift_root`:
the new `root`, the new `resource_path`, and the (re-bound) `shift`
value that ends up in the logged `cmd_kwargs`. -/
structure ShiftOut where
  new_root : PStr
  new_rpath : PStr
  logged : Int
  deriving DecidableEq, Repr

/-- The pure path computation of `FileStore.shift_root`
(`fs.py` lines 563-601): split `root` and `resource_path` into nonempty
segments, move `shift` segments across the split (to the right for
`shift > 0`, otherwise `len(root) + shift` is the new root length),
failing when the shift leaves the legal range, and re-prepend the
leading separator when the original joined path was absolute. -/
def shiftRootPaths (root rpath : PStr) (shift : Int) : Except String ShiftOut :=
  let full := pyJoin root rpath
  let rs := segsOf root
  let ps := segsOf rpath
  let mk : PStr → PStr → Int → ShiftOut := fun nr np lg =>
    { new_root := if full.head? = some psep then psep :: nr else nr
      new_rpath := np
      logged := lg }
  if shift > 0 then
    if shift > (ps.length : Int) then
      .error "Asked to shift farther to right than there are directories"
    else
      .ok (mk (safeJoin (rs ++ ps.take shift.toNat))
              (safeJoin (ps.drop shift.toNat)) shift)
  else
    let eff : Int := (rs.length : Int) + shift
    if eff < 0 then
      .error "Asked to shift farther to left than there are directories"
    else
      .ok (mk (safeJoin (rs.take eff.toNat))
              (safeJoin (rs.drop eff.toNat ++ ps)) eff)

deriving instance DecidableEq for Except

example :
    shiftRootPaths "a/b".data "c/d".data 1 =
      .ok { new_root := "a/b/c".data, new_rpath := "d".data, logged := 1 } := by
  decide

/-! ## Lemmas about segments and joining -/

/-- A list of segments is good when each segment is nonempty and
separator-free — the shape produced by the split in `shift_root`. -/
def GoodSegs (xs : List PStr) : Prop := ∀ x ∈ xs, x ≠ [] ∧ psep ∉ x

/-- The optional absolute-path marker in front of a root. -/
def absPre (a : Bool) : PStr := if a then [psep] else []

theorem splitAux_append_sep (xs : PStr) : ∀ (acc : PStr) (ys : PStr),
    splitAux (xs ++ psep :: ys) acc = splitAux xs acc ++ splitAux ys [] := by
  induction xs with
  | nil => intro acc ys; simp [splitAux]
  | cons c cs ih =>
    intro acc ys
    by_cases hc : c = psep
    · subst hc; simp [splitAux, ih]
    · simp [splitAux, hc, ih]

theorem segsOf_append_sep (a b : PStr) :
    segsOf (a ++ psep :: b) = segsOf a ++ segsOf b := by
  simp [segsOf, splitAux_append_sep, List.filter_append]

theorem segsOf_sep_cons (s : PStr) : segsOf (psep :: s) = segsOf s := by
  have h : psep :: s = [] ++ psep :: s := rfl
  rw [h, segsOf_append_sep]
  simp [segsOf, splitAux]

theorem splitAux_no_sep (xs : PStr) : ∀ (acc : PStr), psep ∉ xs →
    splitAux xs acc = [acc.reverse ++ xs] := by
  induction xs with
  | nil => intro acc _; simp [splitAux]
  | cons c cs ih =>
    intro acc h
    have hc : ¬ c = psep := fun hc => h (hc ▸ List.mem_cons_self c cs)
    have hcs : psep ∉ cs := fun hm => h (List.mem_cons_of_mem _ hm)
    simp [splitAux, hc, ih _ hcs]

theorem segsOf_single (x : PStr) (hne : x ≠ []) (hsep : psep ∉ x) :
    segsOf x = [x] := by
  simp [segsOf, splitAux_no_sep x [] hsep, hne]

theorem segsOf_safeJoin (xs : List PStr) (h : GoodSegs xs) :
    segsOf (safeJoin xs) = xs := by
  induction xs with
  | nil => simp [safeJoin, segsOf, splitAux]
  | cons x t ih =>
    have hx := h x (List.mem_cons_self x t)
    cases t with
    | nil => simpa [safeJoin] using segsOf_single x hx.1 hx.2
    | cons y t2 =>
      have ht : GoodSegs (y :: t2) := fun z hz => h z (List.mem_cons_of_mem _ hz)
      calc segsOf (safeJoin (x :: y :: t2))
          = segsOf (x ++ psep :: safeJoin (y :: t2)) := rfl
        _ = segsOf x ++ segsOf (safeJoin (y :: t2)) := segsOf_append_sep _ _
        _ = [x] ++ (y :: t2) := by rw [segsOf_single x hx.1 hx.2, ih ht]
        _ = x :: y :: t2 := rfl

theorem safeJoin_ne_nil (xs : List PStr) (h : GoodSegs xs) (hne : xs ≠ []) :
    safeJoin xs ≠ [] := by
  cases xs with
  | nil => exact absurd rfl hne
  | cons x t =>
    have hx := h x (List.mem_cons_self x t)
    cases t with
    | nil => simpa [safeJoin] using hx.1
    | cons y t2 =>
      have : safeJoin (x :: y :: t2) = x ++ psep :: safeJoin (y :: t2) := rfl
      rw [this]
      simp

theorem safeJoin_head_ne (xs : List PStr) (h : GoodSegs xs) (hne : xs ≠ []) :
    (safeJoin xs).head? ≠ some psep := by
  cases xs with
  | nil => exact absurd rfl hne
  | cons x t =>
    have hx := h x (List.mem_cons_self x t)
    obtain ⟨c, x2, rfl⟩ : ∃ c x2, x = c :: x2 := by
      cases x with
      | nil => exact absurd rfl hx.1
      | cons c x2 => exact ⟨c, x2, rfl⟩
    have hc : c ≠ psep := fun hc => hx.2 (hc ▸ List.mem_cons_self c x2)
    cases t with
    | nil => simpa [safeJoin] using hc
    | cons y t2 =>
      have hdef : safeJoin ((c :: x2) :: y :: t2)
          = (c :: x2) ++ psep :: safeJoin (y :: t2) := rfl
      rw [hdef]
      simpa using hc

theorem safeJoin_getLast_ne (xs : List PStr) (h : GoodSegs xs) (hne : xs ≠ []) :
    (safeJoin xs).getLast? ≠ some psep := by
  induction xs with
  | nil => exact absurd rfl hne
  | cons x t ih =>
    have hx := h x (List.mem_cons_self x t)
    cases t with
    | nil =>
      intro hlast
      have hlast2 : x.getLast? = some psep := by simpa [safeJoin] using hlast
      obtain ⟨hxne, heq⟩ := List.mem_getLast?_eq_getLast (l := x) (x := psep)
        (Option.mem_def.mpr hlast2)
      exact hx.2 (heq ▸ List.getLast_mem hxne)
    | cons y t2 =>
      have ht : GoodSegs (y :: t2) := fun z hz => h z (List.mem_cons_of_mem _ hz)
      have hnil : safeJoin (y :: t2) ≠ [] := safeJoin_ne_nil _ ht (by simp)
      have hdef : safeJoin (x :: y :: t2) = x ++ psep :: safeJoin (y :: t2) := rfl
      rw [hdef, List.getLast?_append_of_ne_nil x (by simp)]
      have hsplit : psep :: safeJoin (y :: t2) = [psep] ++ safeJoin (y :: t2) := rfl
      rw [hsplit, List.getLast?_append_of_ne_nil [psep] hnil]
      exact ih ht (by simp)

theorem safeJoin_append (u v : List PStr) (hu : u ≠ []) (hv : v ≠ []) :
    safeJoin (u ++ v) = safeJoin u ++ psep :: safeJoin v := by
  induction u with
  | nil => exact absurd rfl hu
  | cons x t ih =>
    cases t with
    | nil =>
      cases v with
      | nil => exact absurd rfl hv
      | cons y t2 => rfl
    | cons y t2 =>
      have hdef : (x :: y :: t2) ++ v = x :: ((y :: t2) ++ v) := rfl
      rw [hdef]
      have h2 : safeJoin (x :: ((y :: t2) ++ v))
          = x ++ psep :: safeJoin ((y :: t2) ++ v) := by
        cases v with
        | nil => exact absurd rfl hv
        | cons z t3 => rfl
      rw [h2, ih (by simp)]
      have h3 : safeJoin (x :: y :: t2) = x ++ psep :: safeJoin (y :: t2) := rfl
      rw [h3]
      simp [List.append_assoc]

theorem rejoin_norm (a : Bool) (u v : List PStr)
    (hu : GoodSegs u) (hv : GoodSegs v) :
    rejoin (absPre a ++ safeJoin u) (safeJoin v) = absPre a ++ safeJoin (u ++ v) := by
  by_cases hvn : v = []
  · subst hvn; simp [rejoin, safeJoin]
  · have hsv : safeJoin v ≠ [] := safeJoin_ne_nil _ hv hvn
    have hhead : ¬ (safeJoin v).head? = some psep := safeJoin_head_ne _ hv hvn
    rw [rejoin, if_neg hsv, pyJoin, if_neg hhead]
    by_cases hun : u = []
    · subst hun
      cases a with
      | false => simp [absPre, safeJoin]
      | true => simp [absPre, safeJoin]
    · have hsu : safeJoin u ≠ [] := safeJoin_ne_nil _ hu hun
      have hne2 : ¬ absPre a ++ safeJoin u = [] := by
        simp [hsu]
      have hlast : (absPre a ++ safeJoin u).getLast? = (safeJoin u).getLast? :=
        List.getLast?_append_of_ne_nil _ hsu
      rw [if_neg hne2, hlast, if_neg (safeJoin_getLast_ne _ hu hun),
          safeJoin_append u v hun hvn]
      simp

theorem pyJoin_abs_iff (a : Bool) (u v : List PStr)
    (hu : GoodSegs u) (hv : GoodSegs v) :
    (pyJoin (absPre a ++ safeJoin u) (safeJoin v)).head? = some psep ↔ a = true := by
  have hvhead : ¬ (safeJoin v).head? = some psep := by
    by_cases hvn : v = []
    · cases hvn; simp [safeJoin]
    · exact safeJoin_head_ne _ hv hvn
  rw [pyJoin, if_neg hvhead]
  by_cases hun : u = []
  · subst hun
    cases a with
    | false =>
      simp only [absPre, safeJoin, if_neg, List.append_nil]
      simp [hvhead]
    | true =>
      have h1 : absPre true ++ safeJoin [] = [psep] := rfl
      rw [h1]
      simp [List.getLast?]
  · have hsu : safeJoin u ≠ [] := safeJoin_ne_nil _ hu hun
    have hne2 : ¬ absPre a ++ safeJoin u = [] := by simp [hsu]
    have hlast : (absPre a ++ safeJoin u).getLast? = (safeJoin u).getLast? :=
      List.getLast?_append_of_ne_nil _ hsu
    rw [if_neg hne2, hlast]
    have hjhead : ∀ t : PStr, ((absPre a ++ safeJoin u) ++ t).head? = some psep ↔ a = true := by
      intro t
      cases a with
      | false =>
        have h0 : absPre false ++ safeJoin u = safeJoin u := by simp [absPre]
        rw [h0]
        obtain ⟨c, u2, hcu⟩ : ∃ c u2, safeJoin u = c :: u2 := by
          cases hsj : safeJoin u with
          | nil => exact absurd hsj hsu
          | cons c u2 => exact ⟨c, u2, rfl⟩
        have hch : (safeJoin u).head? ≠ some psep := safeJoin_head_ne _ hu hun
        rw [hcu] at hch ⊢
        simp only [List.cons_append, List.head?_cons]
        simp only [List.head?_cons] at hch
        constructor
        · intro hcontra; exact absurd hcontra hch
        · intro hf; exact absurd hf (by simp)
      | true =>
        have h0 : absPre true ++ safeJoin u = psep :: safeJoin u := rfl
        rw [h0]
        simp
    rw [if_neg (safeJoin_getLast_ne _ hu hun)]
    exact hjhead (psep :: safeJoin v)

theorem goodSegs_append {u v : List PStr} (hu : GoodSegs u) (hv : GoodSegs v) :
    GoodSegs (u ++ v) := by
  intro x hx
  rcases List.mem_append.mp hx with h | h
  · exact hu x h
  · exact hv x h

theorem goodSegs_take {u : List PStr} (hu : GoodSegs u) (k : Nat) :
    GoodSegs (u.take k) := fun x hx => hu x (List.take_subset _ _ hx)

theorem goodSegs_drop {u : List PStr} (hu : GoodSegs u) (k : Nat) :
    GoodSegs (u.drop k) := fun x hx => hu x (List.drop_subset _ _ hx)

/-- Inside the legal shift range, `shift_root`'s path computation succeeds
and the new `(root, resource_path)` pair re-joins to the same path as the
old pair, for normal-form inputs (root = optional leading separator plus
separator-joined nonempty segments; resource_path = separator-joined
nonempty segments). -/
theorem shiftRootPaths_ok (a : Bool) (rs ps : List PStr) (shift : Int)
    (hrs : GoodSegs rs) (hps : GoodSegs ps)
    (hlo : -(rs.length : Int) ≤ shift) (hhi : shift ≤ (ps.length : Int)) :
    ∃ out, shiftRootPaths (absPre a ++ safeJoin rs) (safeJoin ps) shift = .ok out ∧
      rejoin out.new_root out.new_rpath =
        rejoin (absPre a ++ safeJoin rs) (safeJoin ps) := by
  have hseg1 : segsOf (absPre a ++ safeJoin rs) = rs := by
    cases a with
    | false => simpa [absPre] using segsOf_safeJoin rs hrs
    | true =>
      have h1 : absPre true ++ safeJoin rs = psep :: safeJoin rs := rfl
      rw [h1, segsOf_sep_cons]
      exact segsOf_safeJoin rs hrs
  have hseg2 : segsOf (safeJoin ps) = ps := segsOf_safeJoin ps hps
  have habs : (pyJoin (absPre a ++ safeJoin rs) (safeJoin ps)).head? = some psep ↔ a = true :=
    pyJoin_abs_iff a rs ps hrs hps
  have hjpre : ∀ nr : PStr,
      (if (pyJoin (absPre a ++ safeJoin rs) (safeJoin ps)).head? = some psep
        then psep :: nr else nr) = absPre a ++ nr := by
    intro nr
    cases a with
    | false => rw [if_neg (by simp [habs])]; simp [absPre]
    | true => rw [if_pos (habs.mpr rfl)]; simp [absPre]
  by_cases hpos : shift > 0
  · have hguard : ¬ shift > ((segsOf (safeJoin ps)).length : Int) := by
      rw [hseg2]; omega
    refine ⟨{ new_root := if (pyJoin (absPre a ++ safeJoin rs) (safeJoin ps)).head? = some psep
                then psep :: safeJoin (rs ++ ps.take shift.toNat)
                else safeJoin (rs ++ ps.take shift.toNat)
              new_rpath := safeJoin (ps.drop shift.toNat)
              logged := shift }, ?_, ?_⟩
    · simp only [shiftRootPaths, hseg1, hseg2]
      rw [if_pos hpos, if_neg (hseg2 ▸ hguard)]
    · simp only
      rw [hjpre]
      rw [rejoin_norm a _ _ (goodSegs_append hrs (goodSegs_take hps _)) (goodSegs_drop hps _),
          rejoin_norm a rs ps hrs hps]
      rw [List.append_assoc, List.take_append_drop]
  · have heff : ¬ ((segsOf (absPre a ++ safeJoin rs)).length : Int) + shift < 0 := by
      rw [hseg1]; omega
    refine ⟨{ new_root := if (pyJoin (absPre a ++ safeJoin rs) (safeJoin ps)).head? = some psep
                then psep :: safeJoin (rs.take (((rs.length : Int) + shift).toNat))
                else safeJoin (rs.take (((rs.length : Int) + shift).toNat))
              new_rpath := safeJoin (rs.drop (((rs.length : Int) + shift).toNat) ++ ps)
              logged := (rs.length : Int) + shift }, ?_, ?_⟩
    · simp only [shiftRootPaths, hseg1, hseg2]
      rw [if_neg hpos, if_neg (hseg1 ▸ heff)]
    · simp only
      rw [hjpre]
      rw [rejoin_norm a _ _ (goodSegs_take hrs _) (goodSegs_append (goodSegs_drop hrs _) hps),
          rejoin_norm a rs ps hrs hps]
      rw [← List.append_assoc, List.take_append_drop]

/-- Outside the legal range, `shift_root`'s path computation fails. -/
theorem shiftRootPaths_err (root rpath : PStr) (shift : Int)
    (h : ((segsOf rpath).length : Int) < shift ∨ shift < -((segsOf root).length : Int)) :
    ∃ msg, shiftRootPaths root rpath shift = .error msg := by
  rcases h with h | h
  · have hpos : shift > 0 := by
      have := (segsOf rpath).length
      omega
    refine ⟨"Asked to shift farther to right than there are directories", ?_⟩
    simp only [shiftRootPaths]
    rw [if_pos hpos, if_pos (by omega : shift > ((segsOf rpath).length : Int))]
  · have hpos : ¬ shift > 0 := by omega
    refine ⟨"Asked to shift farther to left than there are directories", ?_⟩
    simp only [shiftRootPaths]
    rw [if_neg hpos, if_pos (by omega : ((segsOf root).length : Int) + shift < 0)]

/-! ## JSON values and the serialization codec

The SQLite collection backend stores the mapping-valued fields
(`resource_kwargs`, `datum_kwargs`, audit `old`/`new`/`cmd_kwargs`)
as JSON text (`shadow_with_json` applies `json.dumps` before the
`INSERT`, and `find`/`find_one` apply `json.loads` on the way out).
`JVal` is the universe of structural values these fields range over. -/

inductive JVal where
  | jnull : JVal
  | jbool : Bool → JVal
  | jint : Int → JVal
  | jstr : String → JVal
  | jarr : List JVal → JVal
  | jobj : List (String × JVal) → JVal

mutual

/-- Decidable equality for `JVal` (hand-rolled: `JVal` nests under
`List`). -/
def decEqJ : (a b : JVal) → Decidable (a = b)
  | .jnull, .jnull => isTrue rfl
  | .jbool x, .jbool y =>
      if h : x = y then isTrue (by rw [h]) else isFalse (fun hc => h (by injection hc))
  | .jint x, .jint y =>
      if h : x = y then isTrue (by rw [h]) else isFalse (fun hc => h (by injection hc))
  | .jstr x, .jstr y =>
      if h : x = y then isTrue (by rw [h]) else isFalse (fun hc => h (by injection hc))
  | .jarr x, .jarr y =>
      match decEqArr x y with
      | isTrue h => isTrue (by rw [h])
      | isFalse h => isFalse (fun hc => h (by injection hc))
  | .jobj x, .jobj y =>
      match decEqObj x y with
      | isTrue h => isTrue (by rw [h])
      | isFalse h => isFalse (fun hc => h (by injection hc))
  | .jnull, .jbool _ => isFalse (fun h => nomatch h)
  | .jnull, .jint _ => isFalse (fun h => nomatch h)
  | .jnull, .jstr _ => isFalse (fun h => nomatch h)
  | .jnull, .jarr _ => isFalse (fun h => nomatch h)
  | .jnull, .jobj _ => isFalse (fun h => nomatch h)
  | .jbool _, .jnull => isFalse (fun h => nomatch h)
  | .jbool _, .jint _ => isFalse (fun h => nomatch h)
  | .jbool _, .jstr _ => isFalse (fun h => nomatch h)
  | .jbool _, .jarr _ => isFalse (fun h => nomatch h)
  | .jbool _, .jobj _ => isFalse (fun h => nomatch h)
  | .jint _, .jnull => isFalse (fun h => nomatch h)
  | .jint _, .jbool _ => isFalse (fun h => nomatch h)
  | .jint _, .jstr _ => isFalse (fun h => nomatch h)
  | .jint _, .jarr _ => isFalse (fun h => nomatch h)
  | .jint _, .jobj _ => isFalse (fun h => nomatch h)
  | .jstr _, .jnull => isFalse (fun h => nomatch h)
  | .jstr _, .jbool _ => isFalse (fun h => nomatch h)
  | .jstr _, .jint _ => isFalse (fun h => nomatch h)
  | .jstr _, .jarr _ => isFalse (fun h => nomatch h)
  | .jstr _, .jobj _ => isFalse (fun h => nomatch h)
  | .jarr _, .jnull => isFalse (fun h => nomatch h)
  | .jarr _, .jbool _ => isFalse (fun h => nomatch h)
  | .jarr _, .jint _ => isFalse (fun h => nomatch h)
  | .jarr _, .jstr _ => isFalse (fun h => nomatch h)
  | .jarr _, .jobj _ => isFalse (fun h => nomatch h)
  | .jobj _, .jnull => isFalse (fun h => nomatch h)
  | .jobj _, .jbool _ => isFalse (fun h => nomatch h)
  | .jobj _, .jint _ => isFalse (fun h => nomatch h)
  | .jobj _, .jstr _ => isFalse (fun h => nomatch h)
  | .jobj _, .jarr _ => isFalse (fun h => nomatch h)

/-- Decidable equality for lists of `JVal`. -/
def decEqArr : (xs ys : List JVal) → Decidable (xs = ys)
  | [], [] => isTrue rfl
  | [], _ :: _ => isFalse (fun h => nomatch h)
  | _ :: _, [] => isFalse (fun h => nomatch h)
  | x :: xs, y :: ys =>
      match decEqJ x y, decEqArr xs ys with
      | isTrue h1, isTrue h2 => isTrue (by rw [h1, h2])
      | isFalse h1, _ => isFalse (fun hc => h1 (by injection hc))
      | _, isFalse h2 => isFalse (fun hc => h2 (by injection hc))

/-- Decidable equality for lists of `(String, JVal)` members. -/
def decEqObj : (xs ys : List (String × JVal)) → Decidable (xs = ys)
  | [], [] => isTrue rfl
  | [], _ :: _ => isFalse (fun h => nomatch h)
  | _ :: _, [] => isFalse (fun h => nomatch h)
  | (k1, v1) :: xs, (k2, v2) :: ys =>
      match String.decEq k1 k2, decEqJ v1 v2, decEqObj xs ys with
      | isTrue h0, isTrue h1, isTrue h2 => isTrue (by rw [h0, h1, h2])
      | isFalse h0, _, _ =>
          isFalse (fun hc => h0 (by injection hc with h3 h4; injection h3))
      | _, isFalse h1, _ =>
          isFalse (fun hc => h1 (by injection hc with h3 h4; injection h3))
      | _, _, isFalse h2 => isFalse (fun hc => h2 (by injection hc))

end

instance : DecidableEq JVal := decEqJ

/-- Fuelled decimal printer (structural recursion so that proofs by
`decide` can evaluate it). -/
def natCharsAux : Nat → Nat → PStr
  | 0, _ => []
  | fuel + 1, n =>
      if n < 10 then [Char.ofNat (48 + n)]
      else natCharsAux fuel (n / 10) ++ [Char.ofNat (48 + n % 10)]

/-- Decimal digit characters of a natural number, most significant first. -/
def natChars (n : Nat) : PStr := natCharsAux (n + 1) n

/-- Hexadecimal digit character (lower case), for `\uXXXX` escapes. -/
def hexDigitChar (k : Nat) : Char :=
  if k < 10 then Char.ofNat (48 + k) else Char.ofNat (87 + k)

/-- Four-digit hexadecimal form of `n`, as in a `\uXXXX` escape. -/
def hex4 (n : Nat) : PStr :=
  [hexDigitChar (n / 4096 % 16), hexDigitChar (n / 256 % 16),
   hexDigitChar (n / 16 % 16), hexDigitChar (n % 16)]

/-- Modelled from the spec: the JSON string-body serializer standing in
for Python's `json.dumps` (the `json` standard-library module is not part
of this repository).  The spec only requires that mapping values
"serialize losslessly to the backend's native value type and deserialize
back to the original structural form"; this escaper emits `\"` and `\\`
for the two JSON-significant characters and `\uXXXX` for control
characters, leaving all other characters verbatim. -/
def escapeChars : PStr → PStr
  | [] => []
  | c :: cs =>
      (if c = '"' then ['\\', '"']
       else if c = '\\' then ['\\', '\\']
       else if c.toNat < 32 then '\\' :: 'u' :: hex4 c.toNat
       else [c]) ++ escapeChars cs

mutual

/-- Modelled from the spec: JSON serialization of a structural value
(standing in for `json.dumps`, which is Python standard library, not
repository code).  Output shapes: `null`, `true`/`false`, decimal
integers, quoted strings, `[v, v]` arrays, and `{"k": v}` objects,
matching the default separators used by `json.dumps`. -/
def dumpsJ : JVal → PStr
  | .jnull => 'n' :: 'u' :: 'l' :: 'l' :: []
  | .jbool true => 't' :: 'r' :: 'u' :: 'e' :: []
  | .jbool false => 'f' :: 'a' :: 'l' :: 's' :: 'e' :: []
  | .jint n => if n < 0 then '-' :: natChars n.natAbs else natChars n.toNat
  | .jstr s => '"' :: (escapeChars s.data ++ ['"'])
  | .jarr [] => '[' :: ']' :: []
  | .jarr (v :: vs) => '[' :: (dumpsArr (v :: vs) ++ [']'])
  | .jobj [] => '{' :: '}' :: []
  | .jobj (kv :: kvs) => '{' :: (dumpsObj (kv :: kvs) ++ ['}'])

/-- Comma-separated serialization of array elements. -/
def dumpsArr : List JVal → PStr
  | [] => []
  | [v] => dumpsJ v
  | v :: v2 :: vs => dumpsJ v ++ ',' :: ' ' :: dumpsArr (v2 :: vs)

/-- Comma-separated serialization of object members (`"key": value`). -/
def dumpsObj : List (String × JVal) → PStr
  | [] => []
  | [kv] => '"' :: (escapeChars kv.1.data ++ '"' :: ':' :: ' ' :: dumpsJ kv.2)
  | kv :: kv2 :: kvs =>
      ('"' :: (escapeChars kv.1.data ++ '"' :: ':' :: ' ' :: dumpsJ kv.2))
        ++ ',' :: ' ' :: dumpsObj (kv2 :: kvs)

end

example : dumpsJ (.jobj [("a", .jint (-3)), ("b", .jarr [.jnull, .jbool true])])
    = "\x7b\"a\": -3, \"b\": [null, true]\x7d".data := by decide

/-! ## JSON parser (`json.loads` model) -/

/-- Value of a hexadecimal digit character, if any. -/
def hexVal (c : Char) : Option Nat :=
  if 48 ≤ c.toNat ∧ c.toNat ≤ 57 then some (c.toNat - 48)
  else if 97 ≤ c.toNat ∧ c.toNat ≤ 102 then some (c.toNat - 87)
  else if 65 ≤ c.toNat ∧ c.toNat ≤ 70 then some (c.toNat - 55)
  else none

/-- Strip an expected literal character sequence from the input. -/
def stripPre : PStr → PStr → Option PStr
  | [], cs => some cs
  | p :: ps, c :: cs => if c = p then stripPre ps cs else none
  | _ :: _, [] => none

/-- Drop blanks (the codec only ever emits single blanks after `,`/`:`). -/
def skipSpaces (cs : PStr) : PStr := cs.dropWhile (fun c => c = ' ')

/-- Parse the body of a JSON string after the opening quote, undoing the
escapes `escapeChars` produces, up to and including the closing quote. -/
def parseStrBody : PStr → Option (PStr × PStr)
  | [] => none
  | c :: rest =>
      if c = '"' then some ([], rest)
      else if c = '\\' then
        match rest with
        | '"' :: r2 => (parseStrBody r2).map (fun p => ('"' :: p.1, p.2))
        | '\\' :: r2 => (parseStrBody r2).map (fun p => ('\\' :: p.1, p.2))
        | 'u' :: h1 :: h2 :: h3 :: h4 :: r2 =>
            match hexVal h1, hexVal h2, hexVal h3, hexVal h4 with
            | some a, some b, some c3, some d =>
                let n := ((a * 16 + b) * 16 + c3) * 16 + d
                if n < 55296 then
                  (parseStrBody r2).map (fun p => (Char.ofNat n :: p.1, p.2))
                else none
            | _, _, _, _ => none
        | _ => none
      else (parseStrBody rest).map (fun p => (c :: p.1, p.2))

/-- Is `c` a decimal digit? -/
def isDigitCh (c : Char) : Prop := 48 ≤ c.toNat ∧ c.toNat ≤ 57

instance (c : Char) : Decidable (isDigitCh c) := by
  unfold isDigitCh; infer_instance

/-- Accumulate a run of decimal digits. -/
def digitsLoop : PStr → Nat → Nat × PStr
  | [], acc => (acc, [])
  | c :: cs, acc =>
      if isDigitCh c then digitsLoop cs (acc * 10 + (c.toNat - 48))
      else (acc, c :: cs)

/-- Parse a nonempty run of decimal digits. -/
def parseNat (cs : PStr) : Option (Nat × PStr) :=
  match cs with
  | [] => none
  | c :: _ => if isDigitCh c then some (digitsLoop cs 0) else none

mutual

/-- Modelled from the spec: the JSON reader standing in for Python's
`json.loads` (standard library, not repository code), fuelled for
termination.  Accepts exactly the forms `dumpsJ` emits. -/
def parseV : Nat → PStr → Option (JVal × PStr)
  | 0, _ => none
  | fuel + 1, cs =>
      match cs with
      | [] => none
      | c :: rest =>
          if c = 'n' then
            match stripPre ('u' :: 'l' :: 'l' :: []) rest with
            | some r => some (.jnull, r)
            | none => none
          else if c = 't' then
            match stripPre ('r' :: 'u' :: 'e' :: []) rest with
            | some r => some (.jbool true, r)
            | none => none
          else if c = 'f' then
            match stripPre ('a' :: 'l' :: 's' :: 'e' :: []) rest with
            | some r => some (.jbool false, r)
            | none => none
          else if c = '"' then
            (parseStrBody rest).map (fun p => (.jstr ⟨p.1⟩, p.2))
          else if c = '[' then
            if rest.head? = some ']' then some (.jarr [], rest.tail)
            else (parseArr fuel rest).map (fun p => (.jarr p.1, p.2))
          else if c = '{' then
            if rest.head? = some '}' then some (.jobj [], rest.tail)
            else (parseObj fuel rest).map (fun p => (.jobj p.1, p.2))
          else if c = '-' then
            (parseNat rest).map (fun p => (.jint (-(p.1 : Int)), p.2))
          else
            (parseNat (c :: rest)).map (fun p => (.jint (p.1 : Int), p.2))

/-- Parse the members of a nonempty JSON array, including the closing
bracket. -/
def parseArr : Nat → PStr → Option (List JVal × PStr)
  | 0, _ => none
  | fuel + 1, cs =>
      match parseV fuel cs with
      | none => none
      | some (v, r) =>
          match r with
          | ']' :: r2 => some ([v], r2)
          | ',' :: r2 =>
              match parseArr fuel (skipSpaces r2) with
              | none => none
              | some (vs, r3) => some (v :: vs, r3)
          | _ => none

/-- Parse the members of a nonempty JSON object, including the closing
brace. -/
def parseObj : Nat → PStr → Option (List (String × JVal) × PStr)
  | 0, _ => none
  | fuel + 1, cs =>
      match cs with
      | '"' :: r0 =>
          match parseStrBody r0 with
          | none => none
          | some (k, r1) =>
              match r1 with
              | ':' :: r2 =>
                  match parseV fuel (skipSpaces r2) with
                  | none => none
                  | some (v, r3) =>
                      match r3 with
                      | '}' :: r4 => some ([(⟨k⟩, v)], r4)
                      | ',' :: r4 =>
                          match parseObj fuel (skipSpaces r4) with
                          | none => none
                          | some (kvs, r5) => some ((⟨k⟩, v) :: kvs, r5)
                      | _ => none
              | _ => none
      | _ => none

end

/-- Modelled from the spec: `json.loads` on a complete document — parse a
value and require the input to be fully consumed. -/
def loadsJ (cs : PStr) : Option JVal :=
  match parseV (cs.length + 1) cs with
  | some (v, []) => some v
  | _ => none

/-- `json.dumps` at `String` type. -/
def dumpsS (v : JVal) : String := ⟨dumpsJ v⟩

/-- `json.loads` at `String` type. -/
def loadsS (s : String) : Option JVal := loadsJ s.data

example :
    loadsS (dumpsS (.jobj [("a", .jint (-31)), ("b", .jarr [.jnull, .jstr "x\ny"])]))
      = some (.jobj [("a", .jint (-31)), ("b", .jarr [.jnull, .jstr "x\ny"])]) := by
  decide

theorem hexVal_hexDigitChar : ∀ k, k < 16 → hexVal (hexDigitChar k) = some k := by
  decide

theorem parseStrBody_escape (s : PStr) : ∀ rest : PStr,
    parseStrBody (escapeChars s ++ '"' :: rest) = some (s, rest) := by
  induction s with
  | nil =>
    intro rest
    simp only [escapeChars, List.nil_append]
    rw [parseStrBody.eq_def]
    simp
  | cons c cs ih =>
    intro rest
    by_cases h1 : c = '"'
    · subst h1
      simp only [escapeChars, if_pos rfl, List.cons_append, List.nil_append]
      rw [parseStrBody.eq_def]
      simp [ih]
    · by_cases h2 : c = '\\'
      · subst h2
        simp only [escapeChars, if_pos rfl, List.cons_append, List.nil_append]
        rw [parseStrBody.eq_def]
        simp [ih]
      · by_cases h3 : c.toNat < 32
        · have hd3 : c.toNat / 16 % 16 < 16 := Nat.mod_lt _ (by omega)
          have hd4 : c.toNat % 16 < 16 := Nat.mod_lt _ (by omega)
          simp only [escapeChars, if_neg h1, if_neg h2, if_pos h3, hex4,
            List.cons_append, List.nil_append]
          rw [show c.toNat / 4096 % 16 = 0 by omega,
            show c.toNat / 256 % 16 = 0 by omega]
          generalize hA : c.toNat / 16 % 16 = a
          generalize hB : c.toNat % 16 = b
          have ha : a < 16 := hA ▸ hd3
          have hb : b < 16 := hB ▸ hd4
          have hab : a * 16 + b = c.toNat := by omega
          rw [parseStrBody.eq_def]
          simp [hexVal_hexDigitChar 0 (by omega), hexVal_hexDigitChar a ha,
            hexVal_hexDigitChar b hb, ih, show a * 16 + b < 55296 by omega,
            hab, Char.ofNat_toNat]
          omega
        · simp only [escapeChars, if_neg h1, if_neg h2, if_neg h3,
            List.cons_append, List.nil_append]
          rw [parseStrBody.eq_def]
          simp [h1, h2, ih]

/-- A head condition under which a digit run will not be extended. -/
def NonDigitHead : PStr → Prop
  | [] => True
  | c :: _ => ¬ isDigitCh c

instance (cs : PStr) : Decidable (NonDigitHead cs) := by
  unfold NonDigitHead
  cases cs <;> infer_instance

theorem digitsLoop_nondigit (cs : PStr) (acc : Nat) (h : NonDigitHead cs) :
    digitsLoop cs acc = (acc, cs) := by
  cases cs with
  | nil => rfl
  | cons c t =>
    have hc : ¬ isDigitCh c := h
    simp [digitsLoop, hc]

theorem digit_char_facts : ∀ m, m < 10 →
    isDigitCh (Char.ofNat (48 + m)) ∧ (Char.ofNat (48 + m)).toNat - 48 = m := by
  decide

theorem natCharsAux_head (n : Nat) : ∀ f, n < f →
    ∃ c t, natCharsAux f n = c :: t ∧ isDigitCh c := by
  induction n using Nat.strong_induction_on with
  | _ n ih =>
    intro f hf
    match f with
    | f2 + 1 =>
      by_cases h : n < 10
      · exact ⟨Char.ofNat (48 + n), [], by simp [natCharsAux, h],
          (digit_char_facts n h).1⟩
      · have hlt : n / 10 < n := Nat.div_lt_self (by omega) (by omega)
        obtain ⟨c, t, heq, hd⟩ := ih (n / 10) hlt f2 (by omega)
        exact ⟨c, t ++ [Char.ofNat (48 + n % 10)],
          by simp [natCharsAux, h, heq], hd⟩

theorem digitsLoop_natCharsAux (n : Nat) : ∀ f acc rest, n < f →
    digitsLoop (natCharsAux f n ++ rest) acc
      = digitsLoop rest (acc * 10 ^ (natCharsAux f n).length + n) := by
  induction n using Nat.strong_induction_on with
  | _ n ih =>
    intro f acc rest hf
    match f with
    | f2 + 1 =>
      by_cases h : n < 10
      · have hdig := (digit_char_facts n h).1
        have hval := (digit_char_facts n h).2
        simp only [natCharsAux, if_pos h, List.cons_append, List.nil_append,
          List.length_cons, List.length_nil]
        simp [digitsLoop, hdig, hval, pow_succ]
      · have hlt : n / 10 < n := Nat.div_lt_self (by omega) (by omega)
        have hdig := (digit_char_facts (n % 10) (Nat.mod_lt _ (by omega))).1
        have hval := (digit_char_facts (n % 10) (Nat.mod_lt _ (by omega))).2
        simp only [natCharsAux, if_neg h]
        rw [List.append_assoc, List.singleton_append,
          ih (n / 10) hlt f2 acc _ (by omega)]
        simp only [digitsLoop, if_pos hdig, hval]
        rw [List.length_append, List.length_cons, List.length_nil]
        have hmod : n / 10 * 10 + n % 10 = n := by omega
        have hpow : 10 ^ ((natCharsAux f2 (n / 10)).length + 1)
            = 10 ^ (natCharsAux f2 (n / 10)).length * 10 := pow_succ 10 _
        congr 1
        rw [hpow]
        ring_nf
        nlinarith [hmod]

theorem parseNat_natChars (n : Nat) (rest : PStr) (h : NonDigitHead rest) :
    parseNat (natChars n ++ rest) = some (n, rest) := by
  obtain ⟨c, t, heq, hd⟩ := natCharsAux_head n (n + 1) (by omega)
  rw [natChars, heq]
  have h2 : digitsLoop ((c :: t) ++ rest) 0 = (n, rest) := by
    rw [← heq, digitsLoop_natCharsAux n (n + 1) 0 rest (by omega),
      digitsLoop_nondigit _ _ h]
    simp
  simp only [List.cons_append] at h2 ⊢
  rw [parseNat]
  rw [if_pos hd, h2]

theorem digit_ne_special (c : Char) (hd : isDigitCh c) :
    c ≠ ']' ∧ c ≠ '}' ∧ c ≠ ' ' ∧ c ≠ 'n' ∧ c ≠ 't' ∧ c ≠ 'f' ∧ c ≠ '"'
      ∧ c ≠ '[' ∧ c ≠ '{' ∧ c ≠ '-' := by
  refine ⟨?_, ?_, ?_, ?_, ?_, ?_, ?_, ?_, ?_, ?_⟩ <;>
    · intro h; subst h; revert hd; decide

/-- The first character a serialized value can start with is never one of
the structural delimiters `]`, `}`, a blank, or a separator. -/
theorem dumpsJ_head (v : JVal) :
    ∃ c t, dumpsJ v = c :: t ∧ c ≠ ']' ∧ c ≠ '}' ∧ c ≠ ' ' := by
  cases v with
  | jnull => exact ⟨'n', _, rfl, by decide, by decide, by decide⟩
  | jbool b => cases b with
    | true => refine ⟨'t', _, rfl, ?_, ?_, ?_⟩ <;> decide
    | false => refine ⟨'f', _, rfl, ?_, ?_, ?_⟩ <;> decide
  | jint n =>
    by_cases hn : n < 0
    · exact ⟨'-', natChars n.natAbs, by simp [dumpsJ, hn], by decide, by decide, by decide⟩
    · obtain ⟨c, t, heq, hd⟩ := natCharsAux_head n.toNat (n.toNat + 1) (by omega)
      obtain ⟨h1, h2, h3, _⟩ := digit_ne_special c hd
      exact ⟨c, t, by simp [dumpsJ, hn, natChars, heq], h1, h2, h3⟩
  | jstr s => exact ⟨'"', _, rfl, by decide, by decide, by decide⟩
  | jarr xs => cases xs with
    | nil => exact ⟨'[', _, rfl, by decide, by decide, by decide⟩
    | cons x t => exact ⟨'[', _, rfl, by decide, by decide, by decide⟩
  | jobj kvs => cases kvs with
    | nil => exact ⟨'{', _, rfl, by decide, by decide, by decide⟩
    | cons kv t => exact ⟨'{', _, rfl, by decide, by decide, by decide⟩

theorem dumpsArr_head (x : JVal) (xs : List JVal) :
    ∃ c t, dumpsArr (x :: xs) = c :: t ∧ c ≠ ']' ∧ c ≠ '}' ∧ c ≠ ' ' := by
  obtain ⟨c, t0, heq, h1, h2, h3⟩ := dumpsJ_head x
  cases xs with
  | nil => exact ⟨c, t0, by simp [dumpsArr, heq], h1, h2, h3⟩
  | cons x2 xs2 =>
    exact ⟨c, t0 ++ ',' :: ' ' :: dumpsArr (x2 :: xs2),
      by simp [dumpsArr, heq], h1, h2, h3⟩

mutual

/-- Fuel sufficient to parse a serialized value. -/
def needV : JVal → Nat
  | .jarr xs => needArr xs + 1
  | .jobj kvs => needObj kvs + 1
  | _ => 1

/-- Fuel sufficient to parse serialized array members. -/
def needArr : List JVal → Nat
  | [] => 1
  | v :: vs => max (needV v) (needArr vs) + 1

/-- Fuel sufficient to parse serialized object members. -/
def needObj : List (String × JVal) → Nat
  | [] => 1
  | kv :: kvs => max (needV kv.2) (needObj kvs) + 1

end

theorem ndh_cons (c : Char) (r : PStr) (h : ¬ isDigitCh c) : NonDigitHead (c :: r) := h

theorem skipSpaces_space_cons (z : PStr) : skipSpaces (' ' :: z) = skipSpaces z := by
  simp [skipSpaces, List.dropWhile]

theorem skipSpaces_head_ne (c : Char) (t : PStr) (h : c ≠ ' ') :
    skipSpaces (c :: t) = c :: t := by
  simp [skipSpaces, List.dropWhile, h]

theorem parseArr_succ (f : Nat) (cs : PStr) :
    parseArr (f + 1) cs =
      match parseV f cs with
      | none => none
      | some (v, r) =>
          match r with
          | ']' :: r2 => some ([v], r2)
          | ',' :: r2 =>
              match parseArr f (skipSpaces r2) with
              | none => none
              | some (vs, r3) => some (v :: vs, r3)
          | _ => none := rfl

theorem parseObj_succ (f : Nat) (cs : PStr) :
    parseObj (f + 1) cs =
      match cs with
      | '"' :: r0 =>
          match parseStrBody r0 with
          | none => none
          | some (k, r1) =>
              match r1 with
              | ':' :: r2 =>
                  match parseV f (skipSpaces r2) with
                  | none => none
                  | some (v, r3) =>
                      match r3 with
                      | '}' :: r4 => some ([(⟨k⟩, v)], r4)
                      | ',' :: r4 =>
                          match parseObj f (skipSpaces r4) with
                          | none => none
                          | some (kvs, r5) => some ((⟨k⟩, v) :: kvs, r5)
                      | _ => none
              | _ => none
      | _ => none := rfl


mutual

theorem parseV_dumpsJ (v : JVal) : ∀ (f : Nat) (rest : PStr), needV v ≤ f →
    NonDigitHead rest → parseV f (dumpsJ v ++ rest) = some (v, rest) := by
  cases v with
  | jnull =>
    intro f rest hf _
    obtain ⟨f2, rfl⟩ : ∃ f2, f = f2 + 1 := ⟨f - 1, by simp [needV] at hf; omega⟩
    simp only [dumpsJ, List.cons_append, List.nil_append]
    rw [parseV.eq_def]
    simp [stripPre]
  | jbool b =>
    intro f rest hf _
    obtain ⟨f2, rfl⟩ : ∃ f2, f = f2 + 1 := ⟨f - 1, by simp [needV] at hf; omega⟩
    cases b with
    | true =>
      simp only [dumpsJ, List.cons_append, List.nil_append]
      rw [parseV.eq_def]
      simp [stripPre]
    | false =>
      simp only [dumpsJ, List.cons_append, List.nil_append]
      rw [parseV.eq_def]
      simp [stripPre]
  | jint n =>
    intro f rest hf hrest
    obtain ⟨f2, rfl⟩ : ∃ f2, f = f2 + 1 := ⟨f - 1, by simp [needV] at hf; omega⟩
    by_cases hn : n < 0
    · simp only [dumpsJ, if_pos hn, List.cons_append]
      rw [parseV.eq_def]
      have hneg : -(n.natAbs : Int) = n := by omega
      simp [parseNat_natChars n.natAbs rest hrest, hneg, abs_of_neg hn]
    · obtain ⟨c, t, heq, hd⟩ := natCharsAux_head n.toNat (n.toNat + 1) (by omega)
      obtain ⟨_, _, _, h4, h5, h6, h7, h8, h9, h10⟩ := digit_ne_special c hd
      have hp := parseNat_natChars n.toNat rest hrest
      rw [natChars, heq] at hp
      simp only [List.cons_append] at hp
      simp only [dumpsJ, if_neg hn, natChars, heq, List.cons_append]
      rw [parseV.eq_def]
      simp only []
      rw [if_neg h4, if_neg h5, if_neg h6, if_neg h7, if_neg h8, if_neg h9,
        if_neg h10, hp]
      simp [Int.toNat_of_nonneg (by omega : (0 : Int) ≤ n)]
  | jstr s =>
    obtain ⟨d⟩ := s
    intro f rest hf _
    obtain ⟨f2, rfl⟩ : ∃ f2, f = f2 + 1 := ⟨f - 1, by simp [needV] at hf; omega⟩
    simp only [dumpsJ, List.cons_append, List.append_assoc, List.singleton_append]
    rw [parseV.eq_def]
    simp [parseStrBody_escape d rest]
  | jarr xs =>
    cases xs with
    | nil =>
      intro f rest hf _
      obtain ⟨f2, rfl⟩ : ∃ f2, f = f2 + 1 := ⟨f - 1, by simp [needV, needArr] at hf; omega⟩
      simp only [dumpsJ, List.cons_append, List.nil_append]
      rw [parseV.eq_def]
      simp
    | cons x xs2 =>
      intro f rest hf _
      obtain ⟨f2, rfl⟩ : ∃ f2, f = f2 + 1 :=
        ⟨f - 1, by simp [needV, needArr] at hf; omega⟩
      have hA : needArr (x :: xs2) ≤ f2 := by simp [needV, needArr] at hf ⊢; omega
      obtain ⟨c, t, hD, hc1, hc2, hc3⟩ := dumpsArr_head x xs2
      simp only [dumpsJ, List.cons_append, List.append_assoc, List.singleton_append]
      rw [parseV.eq_def]
      have hh : (dumpsArr (x :: xs2) ++ ']' :: rest).head? = some c := by
        rw [hD]; simp
      simp [hh, hc1, parseArr_dumpsArr (x :: xs2) (by simp) f2 rest hA]
  | jobj kvs =>
    cases kvs with
    | nil =>
      intro f rest hf _
      obtain ⟨f2, rfl⟩ : ∃ f2, f = f2 + 1 := ⟨f - 1, by simp [needV, needObj] at hf; omega⟩
      simp only [dumpsJ, List.cons_append, List.nil_append]
      rw [parseV.eq_def]
      simp
    | cons kv kvs2 =>
      intro f rest hf _
      obtain ⟨f2, rfl⟩ : ∃ f2, f = f2 + 1 :=
        ⟨f - 1, by simp [needV, needObj] at hf; omega⟩
      have hA : needObj (kv :: kvs2) ≤ f2 := by simp [needV, needObj] at hf ⊢; omega
      simp only [dumpsJ, List.cons_append, List.append_assoc, List.singleton_append]
      rw [parseV.eq_def]
      have hh : (dumpsObj (kv :: kvs2) ++ '}' :: rest).head? = some '"' := by
        cases kvs2 <;> simp [dumpsObj]
      simp [hh, parseObj_dumpsObj (kv :: kvs2) (by simp) f2 rest hA]
termination_by sizeOf v

theorem parseArr_dumpsArr (vs : List JVal) : vs ≠ [] → ∀ (f : Nat) (rest : PStr),
    needArr vs ≤ f → parseArr f (dumpsArr vs ++ ']' :: rest) = some (vs, rest) := by
  cases vs with
  | nil => intro h; exact absurd rfl h
  | cons x xs =>
    intro _ f rest hf
    obtain ⟨f2, rfl⟩ : ∃ f2, f = f2 + 1 := ⟨f - 1, by simp [needArr] at hf; omega⟩
    have hx : needV x ≤ f2 := by simp [needArr] at hf ⊢; omega
    cases xs with
    | nil =>
      simp only [dumpsArr]
      rw [parseArr_succ]
      rw [parseV_dumpsJ x f2 (']' :: rest) hx (ndh_cons _ _ (by decide))]
      rfl
    | cons x2 xs2 =>
      have hx2 : needArr (x2 :: xs2) ≤ f2 := by simp [needArr] at hf ⊢; omega
      simp only [dumpsArr, List.append_assoc, List.cons_append]
      rw [parseArr_succ]
      rw [parseV_dumpsJ x f2 _ hx (ndh_cons _ _ (by decide))]
      obtain ⟨c, t, hD, _, _, hc3⟩ := dumpsArr_head x2 xs2
      have hskip : skipSpaces (' ' :: (dumpsArr (x2 :: xs2) ++ ']' :: rest))
          = dumpsArr (x2 :: xs2) ++ ']' :: rest := by
        rw [skipSpaces_space_cons, hD, List.cons_append,
          skipSpaces_head_ne c _ hc3]
      simp [hskip, parseArr_dumpsArr (x2 :: xs2) (by simp) f2 rest hx2]
termination_by sizeOf vs

theorem parseObj_dumpsObj (kvs : List (String × JVal)) : kvs ≠ [] →
    ∀ (f : Nat) (rest : PStr), needObj kvs ≤ f →
    parseObj f (dumpsObj kvs ++ '}' :: rest) = some (kvs, rest) := by
  cases kvs with
  | nil => intro h; exact absurd rfl h
  | cons kv kvs2 =>
    intro _ f rest hf
    obtain ⟨f2, rfl⟩ : ∃ f2, f = f2 + 1 := ⟨f - 1, by simp [needObj] at hf; omega⟩
    obtain ⟨⟨d⟩, v⟩ := kv
    have hv : needV v ≤ f2 := by simp [needObj] at hf ⊢; omega
    obtain ⟨cv, tv, hV, _, _, hv3⟩ := dumpsJ_head v
    cases kvs2 with
    | nil =>
      simp only [dumpsObj, List.append_assoc, List.cons_append, List.nil_append]
      rw [parseObj_succ]
      simp only []
      rw [parseStrBody_escape d (':' :: ' ' :: (dumpsJ v ++ '}' :: rest))]
      have hskip : skipSpaces (' ' :: (dumpsJ v ++ '}' :: rest))
          = dumpsJ v ++ '}' :: rest := by
        rw [skipSpaces_space_cons, hV, List.cons_append,
          skipSpaces_head_ne cv _ hv3]
      simp only [hskip]
      rw [parseV_dumpsJ v f2 _ hv (ndh_cons _ _ (by decide))]
      rfl
    | cons kv2 kvs3 =>
      have h2 : needObj (kv2 :: kvs3) ≤ f2 := by simp [needObj] at hf ⊢; omega
      simp only [dumpsObj, List.append_assoc, List.cons_append, List.nil_append]
      rw [parseObj_succ]
      simp only []
      rw [parseStrBody_escape d
        (':' :: ' ' :: (dumpsJ v ++ ',' :: ' ' ::
          (dumpsObj (kv2 :: kvs3) ++ '}' :: rest)))]
      have hskip : skipSpaces (' ' :: (dumpsJ v ++ ',' :: ' ' ::
          (dumpsObj (kv2 :: kvs3) ++ '}' :: rest)))
          = dumpsJ v ++ ',' :: ' ' :: (dumpsObj (kv2 :: kvs3) ++ '}' :: rest) := by
        rw [skipSpaces_space_cons, hV, List.cons_append,
          skipSpaces_head_ne cv _ hv3]
      simp only [hskip]
      rw [parseV_dumpsJ v f2 _ hv (ndh_cons _ _ (by decide))]
      have hh : (dumpsObj (kv2 :: kvs3)).head? = some '"' := by
        obtain ⟨k2, v2⟩ := kv2
        cases kvs3 <;> simp [dumpsObj]
      have hskip2 : skipSpaces (' ' :: (dumpsObj (kv2 :: kvs3) ++ '}' :: rest))
          = dumpsObj (kv2 :: kvs3) ++ '}' :: rest := by
        rw [skipSpaces_space_cons]
        obtain ⟨c2, t2, hD2⟩ : ∃ c2 t2, dumpsObj (kv2 :: kvs3) = c2 :: t2 := by
          obtain ⟨k2, v2⟩ := kv2
          cases kvs3 <;> exact ⟨'"', _, rfl⟩
        have : c2 = '"' := by rw [hD2] at hh; simpa using hh
        subst this
        rw [hD2, List.cons_append, skipSpaces_head_ne '"' _ (by decide)]
      simp [hskip2, parseObj_dumpsObj (kv2 :: kvs3) (by simp) f2 rest h2]
termination_by sizeOf kvs

end

theorem needV_pos (v : JVal) : 1 ≤ needV v := by
  cases v <;> simp [needV]

mutual

theorem needV_le_len (v : JVal) : needV v ≤ (dumpsJ v).length := by
  cases v with
  | jnull => simp [needV, dumpsJ]
  | jbool b => cases b <;> simp [needV, dumpsJ]
  | jint n =>
    by_cases hn : n < 0
    · simp [needV, dumpsJ, hn]
    · obtain ⟨c, t, heq, _⟩ := natCharsAux_head n.toNat (n.toNat + 1) (by omega)
      simp [needV, dumpsJ, hn, natChars, heq]
  | jstr s => simp [needV, dumpsJ]
  | jarr xs =>
    cases xs with
    | nil => simp [needV, needArr, dumpsJ]
    | cons x xs2 =>
      have h := needArr_le_len (x :: xs2)
      simp only [needV, dumpsJ, List.length_cons, List.length_append,
        List.length_singleton]
      omega
  | jobj kvs =>
    cases kvs with
    | nil => simp [needV, needObj, dumpsJ]
    | cons kv kvs2 =>
      have h := needObj_le_len (kv :: kvs2)
      simp only [needV, dumpsJ, List.length_cons, List.length_append,
        List.length_singleton]
      omega

theorem needArr_le_len (vs : List JVal) : needArr vs ≤ (dumpsArr vs).length + 1 := by
  cases vs with
  | nil => simp [needArr, dumpsArr]
  | cons v vs2 =>
    have h1 := needV_le_len v
    cases vs2 with
    | nil =>
      have h2 := needV_pos v
      simp only [needArr, dumpsArr, List.length_nil]
      omega
    | cons v2 vs3 =>
      have h2 := needArr_le_len (v2 :: vs3)
      rw [show needArr (v :: v2 :: vs3)
          = max (needV v) (needArr (v2 :: vs3)) + 1 from rfl]
      simp only [dumpsArr, List.length_append, List.length_cons]
      omega

theorem needObj_le_len (kvs : List (String × JVal)) :
    needObj kvs ≤ (dumpsObj kvs).length + 1 := by
  cases kvs with
  | nil => simp [needObj, dumpsObj]
  | cons kv kvs2 =>
    have h1 := needV_le_len kv.2
    cases kvs2 with
    | nil =>
      have h2 := needV_pos kv.2
      simp only [needObj, dumpsObj, List.length_cons, List.length_append]
      omega
    | cons kv2 kvs3 =>
      have h2 := needObj_le_len (kv2 :: kvs3)
      rw [show needObj (kv :: kv2 :: kvs3)
          = max (needV kv.2) (needObj (kv2 :: kvs3)) + 1 from rfl]
      simp only [dumpsObj, List.length_cons, List.length_append]
      omega

end

/-- The codec round-trip: reading back a serialized value recovers the
value exactly (the spec's lossless-serialization requirement). -/
theorem loadsJ_dumpsJ (v : JVal) : loadsJ (dumpsJ v) = some v := by
  have h := parseV_dumpsJ v ((dumpsJ v).length + 1) []
    (le_trans (needV_le_len v) (by omega)) trivial
  rw [List.append_nil] at h
  rw [loadsJ, h]

/-- Round-trip at `String` type, as used by `shadow_with_json` /
`json.loads` in the SQLite collections. -/
theorem loadsS_dumpsS (v : JVal) : loadsS (dumpsS v) = some v :=
  loadsJ_dumpsJ v

/-! ## Data model and the SQLite collection backend

Embeds `databroker/_fs/portable_fs/sqlite/fs.py`: the three tables
(`Resources`, `Datums`, `ResourceUpdates`), with the mapping-valued
columns stored as JSON text via `shadow_with_json`, and the collection
operations `insert_one` / `find_one` / `find` / `replace_one`.
Tables are lists of rows; a SQL `PRIMARY KEY` violation is the
`sqlite3.IntegrityError` (`DuplicateKeyError`) with the transaction
rolled back by the `cursor` context manager, so the table is returned
unchanged. -/

/-- A Python mapping (`dict`) value: ordered association list. -/
abbrev KW := List (String × JVal)

/-- A Resource document. -/
structure Resource where
  uid : String
  spec : String
  resource_path : String
  root : String
  resource_kwargs : KW
  deriving DecidableEq

/-- A Datum document. -/
structure Datum where
  datum_id : String
  resource : String
  datum_kwargs : KW
  deriving DecidableEq

/-- A ResourceUpdate audit document (engine level: snapshots held as
documents). -/
structure RUpdate where
  resource : String
  old : Resource
  new : Resource
  time : Nat
  cmd : String
  cmd_kwargs : KW
  deriving DecidableEq

/-- `dict(resource)` viewed as a JSON value (for serializing audit
snapshots into the `ResourceUpdates` table). -/
def resourceToJ (r : Resource) : JVal :=
  .jobj [("uid", .jstr r.uid), ("spec", .jstr r.spec),
         ("resource_path", .jstr r.resource_path), ("root", .jstr r.root),
         ("resource_kwargs", .jobj r.resource_kwargs)]

/-- Errors surfaced by the storage layer. -/
inductive DbErr where
  | integrityError : DbErr
  deriving DecidableEq

/-- Row of the `Datums` table (`datum_kwargs BLOB` holds JSON text). -/
structure DatumRow where
  datum_id : String
  datum_kwargs : String
  resource : String
  deriving DecidableEq

/-- Row of the `Resources` table. -/
structure ResourceRow where
  uid : String
  spec : String
  resource_path : String
  root : String
  resource_kwargs : String
  deriving DecidableEq

/-- Row of the `ResourceUpdates` table. -/
structure UpdateRow where
  resource : String
  old : String
  new : String
  time : Nat
  cmd : String
  cmd_kwargs : String
  deriving DecidableEq

/-- `DatumCollection.insert_one`: serialize `datum_kwargs`
(`shadow_with_json`) and `INSERT INTO Datums`; a duplicate `datum_id`
violates the primary key, raising `IntegrityError` and rolling the
transaction back. -/
def datumInsertOne (tbl : List DatumRow) (d : Datum) :
    Except DbErr Unit × List DatumRow :=
  if tbl.any (fun r => r.datum_id = d.datum_id) then (.error .integrityError, tbl)
  else (.ok (), tbl ++ [{ datum_id := d.datum_id
                          datum_kwargs := dumpsS (.jobj d.datum_kwargs)
                          resource := d.resource }])

/-- `DatumCollection.find_one`: `SELECT * FROM Datums WHERE datum_id=?`,
then `json.loads` on the `datum_kwargs` column. -/
def datumFindOne (tbl : List DatumRow) (did : String) :
    Option (String × String × Option JVal) :=
  (tbl.find? (fun r => r.datum_id = did)).map
    (fun r => (r.datum_id, r.resource, loadsS r.datum_kwargs))

/-- `ResourceCollection.insert_one`. -/
def resourceInsertOne (tbl : List ResourceRow) (r : Resource) :
    Except DbErr Unit × List ResourceRow :=
  if tbl.any (fun row => row.uid = r.uid) then (.error .integrityError, tbl)
  else (.ok (), tbl ++ [{ uid := r.uid, spec := r.spec
                          resource_path := r.resource_path, root := r.root
                          resource_kwargs := dumpsS (.jobj r.resource_kwargs) }])

/-- `ResourceCollection.replace_one`: `UPDATE Resources SET ... WHERE
uid=?` (replaces every row whose `uid` matches; no error on zero
matches). -/
def resourceReplaceOne (tbl : List ResourceRow) (r : Resource) : List ResourceRow :=
  tbl.map (fun row =>
    if row.uid = r.uid then
      { uid := r.uid, spec := r.spec, resource_path := r.resource_path
        root := r.root, resource_kwargs := dumpsS (.jobj r.resource_kwargs) }
    else row)

/-- `ResourceCollection.find_one`: `SELECT * FROM Resources WHERE uid=?`
plus `json.loads` of `resource_kwargs`. -/
def resourceFindOne (tbl : List ResourceRow) (uid : String) :
    Option (String × String × String × String × Option JVal) :=
  (tbl.find? (fun row => row.uid = uid)).map
    (fun row => (row.uid, row.spec, row.resource_path, row.root,
      loadsS row.resource_kwargs))

/-- `ResourceUpdatesCollection.insert_one`: serialize the `old`/`new`
snapshots and `cmd_kwargs` (`_JSONIFY_KEYS`) and append (no primary
key on this table). -/
def updatesInsertOne (tbl : List UpdateRow) (u : RUpdate) : List UpdateRow :=
  tbl ++ [{ resource := u.resource
            old := dumpsS (resourceToJ u.old)
            new := dumpsS (resourceToJ u.new)
            time := u.time
            cmd := u.cmd
            cmd_kwargs := dumpsS (.jobj u.cmd_kwargs) }]

/-- Ascending-time comparison used by `ORDER BY time`. -/
def timeLe (a b : UpdateRow) : Prop := a.time ≤ b.time

instance : DecidableRel timeLe := fun a b => Nat.decLe a.time b.time

instance : IsTotal UpdateRow timeLe := ⟨fun a b => Nat.le_total a.time b.time⟩

instance : IsTrans UpdateRow timeLe := ⟨fun _ _ _ => Nat.le_trans⟩

/-- Decoded row of the `ResourceUpdates` table as produced by
`ResourceUpdatesCollection.find`. -/
structure UpdateDoc where
  resource : String
  old : Option JVal
  new : Option JVal
  time : Nat
  cmd : String
  cmd_kwargs : Option JVal
  deriving DecidableEq

/-- `ResourceUpdatesCollection.find`: `SELECT * FROM ResourceUpdates
WHERE resource=? ORDER BY time`, with `json.loads` applied to the
`_JSONIFY_KEYS` columns. -/
def updatesFind (tbl : List UpdateRow) (uid : String) : List UpdateDoc :=
  ((tbl.filter (fun row => row.resource = uid)).insertionSort timeLe).map
    (fun row => { resource := row.resource, old := loadsS row.old
                  new := loadsS row.new, time := row.time, cmd := row.cmd
                  cmd_kwargs := loadsS row.cmd_kwargs })

/-- The document-store backend (Mongo) keeps mapping values in their
native structural form: `insert_one` appends the document unchanged and
`find_one` returns it unchanged. -/
def mongoInsertOne (tbl : List Datum) (d : Datum) :
    Except DbErr Unit × List Datum :=
  if tbl.any (fun r => r.datum_id = d.datum_id) then (.error .integrityError, tbl)
  else (.ok (), tbl ++ [d])

/-- Mongo-style `find_one` by `datum_id`. -/
def mongoFindOne (tbl : List Datum) (did : String) : Option Datum :=
  tbl.find? (fun r => r.datum_id = did)

/-! ## The FileStore engine state machine

Embeds `FileStoreRO` / `FileStore` / `FileStoreMoving` from
`databroker/_fs/filestore/fs.py`.  Handlers are modelled as Lean
functions; a handler class carries its `__name__` (used for cache keys
and eviction) and an `hid` standing for Python object identity (the
`is` comparison in `register_handler`).  Mutating operations return the
result (`Except`) together with the post state; a raised exception
leaves the state as it was at the raise point.  The missing module
`filestore/core.py` (the `_api` functions `retrieve`,
`resource_given_uid`, `update_resource`, `get_datum_by_res_gen`,
`get_file_list`) is not under `src/`; those pieces are modelled from
the spec where noted. -/

/-- A constructed handler instance: callable with `datum_kwargs`, and
offering the `get_file_list` capability used by `copy_files`. -/
structure HandlerObj where
  call : KW → JVal
  fileList : List KW → List String

/-- A handler class: `hid` models Python object identity (`is`),
`name` is `__name__`, `construct` is `handler(rpath, **resource_kwargs)`. -/
structure NamedHandler where
  hid : Nat
  name : String
  construct : String → KW → HandlerObj

/-- One layer of the `_ChainMap` handler registry. -/
abbrev RegLayer := List (String × NamedHandler)

/-- The `_ChainMap` handler registry: a nonempty stack of layers,
topmost first (`maps[0]` is `top`). -/
structure Registry where
  top : RegLayer
  rest : List RegLayer

/-- Dict lookup in one layer. -/
def layerFind (layer : RegLayer) (spec : String) : Option NamedHandler :=
  (layer.find? (fun kv => kv.1 = spec)).map (fun kv => kv.2)

/-- Lookup through the fallback layers, top first. -/
def layersFind : List RegLayer → String → Option NamedHandler
  | [], _ => none
  | l :: ls, s =>
      match layerFind l s with
      | some h => some h
      | none => layersFind ls s

/-- `ChainMap.__getitem__`: first hit wins, topmost layer first. -/
def regFind (reg : Registry) (spec : String) : Option NamedHandler :=
  match layerFind reg.top spec with
  | some h => some h
  | none => layersFind reg.rest spec

/-- Dict assignment in a layer (`__setitem__` writes the primary map):
replace in place if the key exists, else append. -/
def layerInsert (layer : RegLayer) (spec : String) (h : NamedHandler) : RegLayer :=
  if layer.any (fun kv => kv.1 = spec) then
    layer.map (fun kv => if kv.1 = spec then (spec, h) else kv)
  else layer ++ [(spec, h)]

/-- Errors raised by the engine. -/
inductive Err where
  | datumNotFound
  | resourceNotFound
  | keyErr
  | dupHandler
  | notImplErr
  | consistencyErr
  | snapshotMismatch
  | shiftRange
  | dbFail
  | runtimeErr
  deriving DecidableEq

/-- Full engine state: the three collections, the layered handler
registry, the three caches, the root map, the filesystem (a list of
existing paths) and a clock supplying `time.time()` stamps. -/
structure FSState where
  version : Nat
  resources : List Resource
  datums : List Datum
  updates : List RUpdate
  registry : Registry
  handler_cache : List ((String × String) × HandlerObj)
  resource_cache : List (String × Resource)
  datum_cache : List (String × JVal)
  root_map : List (String × String)
  files : List String
  clock : Nat

/-- Association-list lookup used by the caches. -/
def cacheFind {α : Type} (cache : List ((String × String) × α)) (k : String × String) :
    Option α :=
  (cache.find? (fun kv => kv.1 = k)).map (fun kv => kv.2)

/-- Association-list lookup keyed by one string. -/
def listFind {α : Type} (cache : List (String × α)) (k : String) : Option α :=
  (cache.find? (fun kv => kv.1 = k)).map (fun kv => kv.2)

/-- `dict.get(k, d)` for the root map. -/
def lookupD (m : List (String × String)) (k d : String) : String :=
  match listFind m k with
  | some v => v
  | none => d

/-- `find_one` by uid on the Resources collection. -/
def findRes (l : List Resource) (u : String) : Option Resource :=
  l.find? (fun r => r.uid = u)

/-- Argument convention shared by several methods: a resource Document
or its uid string. -/
inductive ResOrUid where
  | uid (u : String)
  | doc (r : Resource)

/-- `doc_or_uid_to_uid`. -/
def residUid : ResOrUid → String
  | .uid u => u
  | .doc r => r.uid

/-- Modelled from the spec: `core.resource_given_uid` (in the missing
`filestore/core.py`) — resolve a Document-or-uid argument to the
database-held resource with that uid, a NotFound error when absent. -/
def resourceGivenUid (st : FSState) (x : ResOrUid) : Except Err Resource :=
  match findRes st.resources (residUid x) with
  | none => .error .resourceNotFound
  | some r => .ok r

/-- `posixpath.join` at `String` type. -/
def pyJoinS (a b : String) : String := ⟨pyJoin a.data b.data⟩

/-- `FileStoreRO.get_spec_handler` (fs.py lines 278-321): resolve the
resource through the read-through resource cache, look its `spec` up in
the layered registry (KeyError when unbound), return the cached handler
instance keyed by `(uid, handler.__name__)` or construct one with
`handler(path, **resource_kwargs)` where the path joins
`root_map.get(root, root)` with `resource_path` when the mapped root is
non-empty. -/
def getSpecHandler (st : FSState) (uid : String) : Except Err (HandlerObj × FSState) :=
  let fetched : Except Err (Resource × FSState) :=
    match listFind st.resource_cache uid with
    | some r => .ok (r, st)
    | none =>
        match findRes st.resources uid with
        | none => .error .resourceNotFound
        | some r => .ok (r, { st with resource_cache := (uid, r) :: st.resource_cache })
  match fetched with
  | .error e => .error e
  | .ok (r, st1) =>
      match regFind st1.registry r.spec with
      | none => .error .keyErr
      | some nh =>
          let key := (r.uid, nh.name)
          match cacheFind st1.handler_cache key with
          | some obj => .ok (obj, st1)
          | none =>
              let root := lookupD st1.root_map r.root r.root
              let rpath := if root ≠ "" then pyJoinS root r.resource_path
                           else r.resource_path
              let obj := nh.construct rpath r.resource_kwargs
              .ok (obj, { st1 with handler_cache := (key, obj) :: st1.handler_cache })

/-- Modelled from the spec: `core.retrieve` (missing `core.py`; spec
section 4.4) — return the cached value for the datum id if present;
otherwise fetch the Datum (DatumNotFound when absent), obtain the
handler via `get_spec_handler`, call it with the datum's
`datum_kwargs`, cache and return the result. -/
def retrieveFS (st : FSState) (did : String) : Except Err JVal × FSState :=
  match listFind st.datum_cache did with
  | some v => (.ok v, st)
  | none =>
      match st.datums.find? (fun d => d.datum_id = did) with
      | none => (.error .datumNotFound, st)
      | some d =>
          match getSpecHandler st d.resource with
          | .error e => (.error e, st)
          | .ok (h, st1) =>
              let v := h.call d.datum_kwargs
              (.ok v, { st1 with datum_cache := (did, v) :: st1.datum_cache })

/-- `replace_one` on the Resources collection (update the rows whose
uid matches). -/
def replaceRes (l : List Resource) (r : Resource) : List Resource :=
  l.map (fun x => if x.uid = r.uid then r else x)

/-- Modelled from the spec: `core.update_resource` (missing `core.py`;
spec section 4.5) — write the new resource via `replace_one` and append
one ResourceUpdate record carrying the old/new snapshots, the command
name and its kwargs, stamped with the current time. -/
def updateResource (st : FSState) (old new : Resource) (cmd : String) (ck : KW) :
    FSState :=
  { st with
    resources := replaceRes st.resources new
    updates := st.updates ++ [{ resource := old.uid, old := old, new := new
                                time := st.clock, cmd := cmd, cmd_kwargs := ck }]
    clock := st.clock + 1 }

/-- `FileStore.shift_root` (fs.py lines 541-612): refuse on schema
version 0; resolve the argument to the database resource (line 561),
re-fetch it by uid (line 567) and compare the two documents (lines
568-573); compute the new split via the path arithmetic; commit through
`update_resource` with `cmd="shift_root"` and the re-bound `shift` in
`cmd_kwargs`. -/
def shiftRootFS (st : FSState) (x : ResOrUid) (shift : Int) :
    Except Err Unit × FSState :=
  if st.version = 0 then (.error .notImplErr, st)
  else
    match resourceGivenUid st x with
    | .error e => (.error e, st)
    | .ok resource =>
        match resourceGivenUid st (.doc resource) with
        | .error e => (.error e, st)
        | .ok actual =>
            if actual ≠ resource then (.error .snapshotMismatch, st)
            else
              match shiftRootPaths resource.root.data resource.resource_path.data
                  shift with
              | .error _ => (.error .shiftRange, st)
              | .ok out =>
                  let nr : String := ⟨out.new_root⟩
                  let np : String := ⟨out.new_rpath⟩
                  let newr := { resource with root := nr, resource_path := np }
                  (.ok (), updateResource st actual newr "shift_root"
                    [("shift", .jint out.logged)])

/-- Ascending-time order on engine-level ResourceUpdate documents. -/
def ruTimeLe (a b : RUpdate) : Prop := a.time ≤ b.time

instance : DecidableRel ruTimeLe := fun a b => Nat.decLe a.time b.time

instance : IsTotal RUpdate ruTimeLe := ⟨fun a b => Nat.le_total a.time b.time⟩

instance : IsTrans RUpdate ruTimeLe := ⟨fun _ _ _ => Nat.le_trans⟩

/-- `FileStoreRO.get_history` (fs.py lines 323-340) over the
ResourceUpdates collection: refuse on schema version 0, else yield the
resource's update documents in ascending time order (the SQLite
backend's `SELECT ... WHERE resource=? ORDER BY time`). -/
def getHistoryFS (st : FSState) (uid : String) : Except Err (List RUpdate) :=
  if st.version = 0 then .error .notImplErr
  else .ok ((st.updates.filter (fun u => u.resource = uid)).insertionSort ruTimeLe)

/-! ## Relocation engine: `copy_files` and `change_root` -/

/-- Observable effects of a relocation call, in order. -/
inductive Ev where
  | copied (src dst : String)
  | dbUpdated
  | deleted (f : String)
  | cachesCleared
  deriving DecidableEq

/-- Modelled from the spec: `os.path.relpath(f, root)` (Python standard
library) in the guarded situation `f.startswith(root)` that
`copy_files` has already established — the remainder of `f` after
`root`, less leading separators. -/
def relAfterRoot (f root : String) : String :=
  ⟨(f.data.drop root.data.length).dropWhile (fun c => c = psep)⟩

/-- Modelled from the spec: `core.get_file_list` (missing `core.py`) as
wrapped by `FileStoreRO.get_file_list` (fs.py lines 454-464) — obtain
the resource's handler via `get_spec_handler` and ask it for the file
list of the resource's datum kwargs ("the handler's file-listing
capability"). -/
def getFileListFS (st : FSState) (x : ResOrUid) :
    Except Err (List String) × FSState :=
  match resourceGivenUid st x with
  | .error e => (.error e, st)
  | .ok r =>
      let kwargs := (st.datums.filter (fun d => d.resource = r.uid)).map
        (fun d => d.datum_kwargs)
      match getSpecHandler st r.uid with
      | .error e => (.error e, st)
      | .ok (h, st1) => (.ok (h.fileList kwargs), st1)

/-- `FileStoreRO.copy_files` (fs.py lines 342-444): refuse on version 0
or `verify=True`; enumerate the resource's files; take the resource's
`root` (warning-fallback to the separator when empty) and abort with a
consistency violation if any file does not start with it — before any
copy; then copy every file to its destination under `new_root`,
returning the (source, destination) pairs.  Rename-hook invocation is
effect-free here (hook errors are swallowed by the source). -/
def copyFilesFS (st : FSState) (x : ResOrUid) (new_root : String)
    (verify : Bool) : Except Err (List (String × String)) × FSState × List Ev :=
  if st.version = 0 then (.error .notImplErr, st, [])
  else if verify then (.error .notImplErr, st, [])
  else
    match resourceGivenUid st x with
    | .error e => (.error e, st, [])
    | .ok r =>
        match getFileListFS st (.doc r) with
        | (.error e, st1) => (.error e, st1, [])
        | (.ok file_list, st1) =>
            let old_root := if r.root = "" then "/" else r.root
            if file_list.any (fun f => !(old_root.data.isPrefixOf f.data)) then
              (.error .consistencyErr, st1, [])
            else
              let pairs := file_list.map
                (fun f => (f, pyJoinS new_root (relAfterRoot f old_root)))
              (.ok pairs,
               { st1 with files := st1.files ++ pairs.map (fun p => p.2) },
               pairs.map (fun p => Ev.copied p.1 p.2))

/-- `FileStoreMoving.change_root` (fs.py lines 617-703): resolve the
resource, run `copy_files`, update the database (`replace_one` plus one
`cmd="change_root"` ResourceUpdate), then — only when the update
succeeded and `remove_origin` is set — unlink the original files, and
finally evict the resource-cache entry and the handler-cache entries
keyed by the resource's uid.  `dbOk` is the environment's verdict on
the database round-trip: when it is `false` the update raises and the
exception propagates before any deletion or eviction. -/
def changeRootFS (st : FSState) (x : ResOrUid) (new_root : String)
    (remove_origin verify dbOk : Bool) :
    Except Err Unit × FSState × List Ev :=
  match resourceGivenUid st x with
  | .error e => (.error e, st, [])
  | .ok resource =>
      match copyFilesFS st (.doc resource) new_root verify with
      | (.error e, st1, tr) => (.error e, st1, tr)
      | (.ok file_pairs, st1, tr) =>
          let new_resource := { resource with root := new_root }
          if dbOk = false then (.error .dbFail, st1, tr)
          else
            let st2 := updateResource st1 resource new_resource "change_root"
              [("remove_origin", .jbool remove_origin),
               ("verify", .jbool verify), ("new_root", .jstr new_root)]
            let tr2 := tr ++ [Ev.dbUpdated]
            let keep : String → Bool := fun f => !(file_pairs.any (fun p => p.1 = f))
            let st3 := if remove_origin then { st2 with files := st2.files.filter keep }
              else st2
            let tr3 := tr2 ++ (if remove_origin then
                file_pairs.map (fun p => Ev.deleted p.1) else [])
            let uid := resource.uid
            let st4 := { st3 with
                         resource_cache := st3.resource_cache.filter
                           (fun kv => !(kv.1 = uid))
                         handler_cache := st3.handler_cache.filter
                           (fun kv => !(kv.1.1 = uid)) }
            (.ok (), st4, tr3 ++ [Ev.cachesCleared])

/-! ## Handler registration and scoped overrides -/

/-- `FileStoreRO.deregister_handler` (fs.py lines 199-205):
`ChainMap.pop` removes the binding from the top layer only; when a
handler was popped, every cached instance whose constructor name
matches its `__name__` is evicted. -/
def deregisterFS (st : FSState) (spec : String) : FSState :=
  match layerFind st.registry.top spec with
  | none => st
  | some h =>
      let reg1 : Registry := { st.registry with
        top := st.registry.top.filter (fun kv => !(kv.1 = spec)) }
      { st with registry := reg1
                handler_cache := st.handler_cache.filter
                  (fun kv => !(kv.1.2 = h.name)) }

/-- `FileStoreRO.register_handler` (fs.py lines 188-197): without
`overwrite`, an existing binding for the spec (any layer) to a handler
that is not the very same object (`is`) raises DuplicateHandler, the
identical object is a no-op; otherwise deregister then bind in the top
layer. -/
def registerHandlerFS (st : FSState) (spec : String) (h : NamedHandler)
    (overwrite : Bool) : Except Err Unit × FSState :=
  match regFind st.registry spec, overwrite with
  | some h0, false =>
      if h0.hid = h.hid then (.ok (), st) else (.error .dupHandler, st)
  | _, _ =>
      let st1 := deregisterFS st spec
      let reg1 : Registry := { st1.registry with
        top := layerInsert st1.registry.top spec h }
      (.ok (), { st1 with registry := reg1 })

/-- Engine operations a `handler_context` body can perform through the
public surface, including nested `handler_context` scopes. -/
inductive FSOp where
  | register (spec : String) (h : NamedHandler) (overwrite : Bool)
  | deregister (spec : String)
  | getHandler (uid : String)
  | retrieveOp (did : String)
  | scope (temp : RegLayer) (body : List FSOp)

mutual

/-- Run one operation; the `Bool` is false when it raised (the
remaining operations of the block are skipped, as after a Python
exception).  The `scope` case is `FileStoreRO.handler_context`
(fs.py lines 207-220): push the temporary overlay (`new_child`), run
the body, then — in a `finally`, so also after an error — restore the
stashed registry and evict every handler-cache entry whose constructor
name matches a handler of the exiting overlay (`popped_reg.values()`,
the overlay as it is at exit). -/
def runOp : FSOp → FSState → FSState × Bool
  | .register s h ow, st =>
      match registerHandlerFS st s h ow with
      | (.ok _, st1) => (st1, true)
      | (.error _, st1) => (st1, false)
  | .deregister s, st => (deregisterFS st s, true)
  | .getHandler u, st =>
      match getSpecHandler st u with
      | .error _ => (st, false)
      | .ok (_, st1) => (st1, true)
  | .retrieveOp d, st =>
      match retrieveFS st d with
      | (.error _, st1) => (st1, false)
      | (.ok _, st1) => (st1, true)
  | .scope temp body, st =>
      let reg1 : Registry := { top := temp
                               rest := st.registry.top :: st.registry.rest }
      let p := runOps body { st with registry := reg1 }
      let names := p.1.registry.top.map (fun kv => kv.2.name)
      let keep : (String × String) × HandlerObj → Bool :=
        fun kv => !(names.contains kv.1.2)
      ({ p.1 with registry := st.registry
                  handler_cache := p.1.handler_cache.filter keep }, p.2)

/-- Run a block of operations, stopping at the first raise. -/
def runOps : List FSOp → FSState → FSState × Bool
  | [], st => (st, true)
  | op :: ops, st =>
      match runOp op st with
      | (st1, true) => runOps ops st1
      | (st1, false) => (st1, false)

end

/-! ## Version dispatch (`FileStoreRO.version`) -/

/-- The version-dispatch fields of `FileStoreRO`: `_api` is the module
selected from `_API_MAP = {0: core_v0, 1: core}` (represented by its
key), `_version` the stored schema version. -/
structure VersionState where
  _api : Option Nat
  _version : Nat
  deriving DecidableEq

/-- The `version` property setter (fs.py lines 124-129): refuse with
RuntimeError once `_api` is set; otherwise select the api module
(`_API_MAP[val]`, KeyError outside `{0, 1}`) and store the version. -/
def setVersion (s : VersionState) (val : Nat) : Except Err Unit × VersionState :=
  if s._api.isSome then (.error .runtimeErr, s)
  else if val = 0 ∨ val = 1 then (.ok (), { _api := some val, _version := val })
  else (.error .keyErr, s)

/-- `FileStoreRO.__init__` (fs.py lines 139-142): start with
`_api = None` and assign `self.version = version` through the setter. -/
def initVersion (version : Nat) : Except Err Unit × VersionState :=
  setVersion { _api := none, _version := 0 } version

/-! ## Engine lemmas -/

theorem pyJoin_nil_left (b : PStr) : pyJoin [] b = b := by
  unfold pyJoin
  split
  · rfl
  · rw [if_pos rfl]

theorem pyJoinS_empty_left (p : String) : pyJoinS "" p = p := by
  show (⟨pyJoin [] p.data⟩ : String) = p
  rw [pyJoin_nil_left]

theorem segsOf_absPre_safeJoin (a : Bool) (rs : List PStr) (h : GoodSegs rs) :
    segsOf (absPre a ++ safeJoin rs) = rs := by
  cases a with
  | false => simpa [absPre] using segsOf_safeJoin rs h
  | true =>
    have h1 : absPre true ++ safeJoin rs = psep :: safeJoin rs := rfl
    rw [h1, segsOf_sep_cons]
    exact segsOf_safeJoin rs h

theorem findRes_some_uid {l : List Resource} {u : String} {r : Resource}
    (h : findRes l u = some r) : r.uid = u := by
  have := List.find?_some h
  simpa using this

theorem findRes_replaceRes {l : List Resource} {u : String} {r r2 : Resource}
    (h : findRes l u = some r) (huid : r2.uid = u) :
    findRes (replaceRes l r2) u = some r2 := by
  induction l with
  | nil => simp [findRes] at h
  | cons x t ih =>
    by_cases hx : x.uid = u
    · simp [findRes, replaceRes, hx, huid]
    · have h2 : findRes t u = some r := by
        simpa [findRes, List.find?, hx] using h
      have hx2 : x.uid ≠ r2.uid := by rw [huid]; exact hx
      have := ih h2
      simpa [findRes, replaceRes, hx, hx2, List.find?] using this

theorem resourceGivenUid_idem {st : FSState} {x : ResOrUid} {r : Resource}
    (h : resourceGivenUid st x = .ok r) :
    resourceGivenUid st (.doc r) = .ok r := by
  have hfind : findRes st.resources (residUid x) = some r := by
    unfold resourceGivenUid at h
    cases hf : findRes st.resources (residUid x) with
    | none => rw [hf] at h; exact absurd h (by simp)
    | some r0 =>
        rw [hf] at h
        simp only [Except.ok.injEq] at h
        rw [h]
  have huid : r.uid = residUid x := findRes_some_uid hfind
  unfold resourceGivenUid
  have h2 : findRes st.resources (residUid (.doc r)) = some r := by
    show findRes st.resources r.uid = some r
    rw [huid]
    exact hfind
  rw [h2]

theorem find?_append_of_none {α : Type} (p : α → Bool) {l1 : List α}
    (h : l1.find? p = none) (l2 : List α) :
    (l1 ++ l2).find? p = l2.find? p := by
  induction l1 with
  | nil => rfl
  | cons x t ih =>
    have hx : p x = false := by
      by_cases hp : p x = true
      · rw [List.find?_cons_of_pos _ hp] at h; exact absurd h (by simp)
      · simpa using hp
    rw [List.find?_cons_of_neg _ (by simp [hx])] at h
    rw [List.cons_append, List.find?_cons_of_neg _ (by simp [hx])]
    exact ih h

theorem getSpecHandler_pres {st : FSState} {uid : String} {hobj : HandlerObj}
    {st1 : FSState} (heq : getSpecHandler st uid = .ok (hobj, st1)) :
    st1.version = st.version ∧ st1.resources = st.resources ∧
    st1.datums = st.datums ∧ st1.updates = st.updates ∧
    st1.registry = st.registry ∧ st1.files = st.files ∧
    st1.root_map = st.root_map ∧ st1.clock = st.clock ∧
    st1.datum_cache = st.datum_cache := by
  unfold getSpecHandler at heq
  cases hc : listFind st.resource_cache uid with
  | some r =>
      rw [hc] at heq
      simp only [] at heq
      cases hr : regFind st.registry r.spec with
      | none => rw [hr] at heq; exact absurd heq (by simp)
      | some nh =>
          rw [hr] at heq
          simp only [] at heq
          cases hcc : cacheFind st.handler_cache (r.uid, nh.name) with
          | some obj =>
              rw [hcc] at heq
              simp only [Except.ok.injEq, Prod.mk.injEq] at heq
              rw [← heq.2]
              exact ⟨rfl, rfl, rfl, rfl, rfl, rfl, rfl, rfl, rfl⟩
          | none =>
              rw [hcc] at heq
              simp only [Except.ok.injEq, Prod.mk.injEq] at heq
              rw [← heq.2]
              exact ⟨rfl, rfl, rfl, rfl, rfl, rfl, rfl, rfl, rfl⟩
  | none =>
      rw [hc] at heq
      cases hf : findRes st.resources uid with
      | none => rw [hf] at heq; exact absurd heq (by simp)
      | some r =>
          rw [hf] at heq
          simp only [] at heq
          cases hr : regFind st.registry r.spec with
          | none => rw [hr] at heq; exact absurd heq (by simp)
          | some nh =>
              rw [hr] at heq
              simp only [] at heq
              cases hcc : cacheFind st.handler_cache (r.uid, nh.name) with
              | some obj =>
                  rw [hcc] at heq
                  simp only [Except.ok.injEq, Prod.mk.injEq] at heq
                  rw [← heq.2]
                  exact ⟨rfl, rfl, rfl, rfl, rfl, rfl, rfl, rfl, rfl⟩
              | none =>
                  rw [hcc] at heq
                  simp only [Except.ok.injEq, Prod.mk.injEq] at heq
                  rw [← heq.2]
                  exact ⟨rfl, rfl, rfl, rfl, rfl, rfl, rfl, rfl, rfl⟩

theorem getFileListFS_pres (st : FSState) (x : ResOrUid) :
    (getFileListFS st x).2.version = st.version ∧
    (getFileListFS st x).2.resources = st.resources ∧
    (getFileListFS st x).2.datums = st.datums ∧
    (getFileListFS st x).2.updates = st.updates ∧
    (getFileListFS st x).2.registry = st.registry ∧
    (getFileListFS st x).2.files = st.files ∧
    (getFileListFS st x).2.root_map = st.root_map ∧
    (getFileListFS st x).2.clock = st.clock := by
  unfold getFileListFS
  cases hg : resourceGivenUid st x with
  | error e => exact ⟨rfl, rfl, rfl, rfl, rfl, rfl, rfl, rfl⟩
  | ok r =>
      simp only []
      cases hs : getSpecHandler st r.uid with
      | error e => exact ⟨rfl, rfl, rfl, rfl, rfl, rfl, rfl, rfl⟩
      | ok p =>
          obtain ⟨h1, h2, h3, h4, h5, h6, h7, h8, _⟩ :=
            @getSpecHandler_pres st r.uid p.1 p.2 (by rw [hs])
          exact ⟨h1, h2, h3, h4, h5, h6, h7, h8⟩

theorem copyFilesFS_collections (st : FSState) (x : ResOrUid) (nr : String)
    (v : Bool) :
    (copyFilesFS st x nr v).2.1.resources = st.resources ∧
    (copyFilesFS st x nr v).2.1.datums = st.datums ∧
    (copyFilesFS st x nr v).2.1.updates = st.updates := by
  unfold copyFilesFS
  by_cases h0 : st.version = 0
  · simp [if_pos h0]
  · rw [if_neg h0]
    by_cases hv : v
    · simp [if_pos hv]
    · rw [if_neg hv]
      cases hg : resourceGivenUid st x with
      | error e => exact ⟨rfl, rfl, rfl⟩
      | ok r =>
          simp only []
          obtain ⟨_, h2, h3, h4, _, h6, _, _⟩ := getFileListFS_pres st (.doc r)
          cases hf : getFileListFS st (.doc r) with
          | mk res st1 =>
              rw [hf] at h2 h3 h4
              cases res with
              | error e => exact ⟨h2, h3, h4⟩
              | ok fl =>
                  simp only []
                  by_cases hb : fl.any
                      (fun f => !((if r.root = "" then "/" else r.root).data.isPrefixOf f.data))
                  · rw [if_pos hb]; exact ⟨h2, h3, h4⟩
                  · rw [if_neg hb]; exact ⟨h2, h3, h4⟩

theorem copyFilesFS_ok_parts {st : FSState} {x : ResOrUid} {nr : String}
    {v : Bool} {pairs : List (String × String)}
    (h : (copyFilesFS st x nr v).1 = .ok pairs) :
    (copyFilesFS st x nr v).2.2 = pairs.map (fun p => Ev.copied p.1 p.2) ∧
    (copyFilesFS st x nr v).2.1.files = st.files ++ pairs.map (fun p => p.2) := by
  unfold copyFilesFS at h ⊢
  by_cases h0 : st.version = 0
  · rw [if_pos h0] at h; exact absurd h (by simp)
  · rw [if_neg h0] at h ⊢
    by_cases hv : v
    · rw [if_pos hv] at h; exact absurd h (by simp)
    · rw [if_neg hv] at h ⊢
      cases hg : resourceGivenUid st x with
      | error e => rw [hg] at h; exact absurd h (by simp)
      | ok r =>
          rw [hg] at h
          simp only [] at h ⊢
          obtain ⟨_, _, _, _, _, h6, _, _⟩ := getFileListFS_pres st (.doc r)
          cases hf : getFileListFS st (.doc r) with
          | mk res st1 =>
              rw [hf] at h h6
              cases res with
              | error e => exact absurd h (by simp)
              | ok fl =>
                  simp only [] at h ⊢
                  by_cases hb : fl.any
                      (fun f => !((if r.root = "" then "/" else r.root).data.isPrefixOf f.data))
                  · rw [if_pos hb] at h; exact absurd h (by simp)
                  · rw [if_neg hb] at h ⊢
                    simp only [Except.ok.injEq] at h
                    subst h
                    exact ⟨rfl, by rw [h6]⟩

theorem cacheFind_cons_pos {kv : (String × String) × HandlerObj}
    {X : List ((String × String) × HandlerObj)} {k : String × String}
    (h : kv.1 = k) : cacheFind (kv :: X) k = some kv.2 := by
  unfold cacheFind
  rw [List.find?_cons_of_pos _ (by simp [h])]
  rfl

theorem cacheFind_cons_neg {kv : (String × String) × HandlerObj}
    {X : List ((String × String) × HandlerObj)} {k : String × String}
    (h : ¬ kv.1 = k) : cacheFind (kv :: X) k = cacheFind X k := by
  unfold cacheFind
  rw [List.find?_cons_of_neg _ (by simp [h])]

theorem cacheFind_filter (cache : List ((String × String) × HandlerObj))
    (names : List String) (k : String × String) :
    cacheFind (cache.filter (fun kv => !(names.contains kv.1.2))) k
      = if names.contains k.2 = true then none else cacheFind cache k := by
  induction cache with
  | nil => cases h : names.contains k.2 <;> simp [cacheFind, h]
  | cons kv t ih =>
    rw [List.filter_cons]
    by_cases hk : names.contains kv.1.2 = true
    · rw [if_neg (by rw [hk]; simp)]
      rw [ih]
      by_cases hkk : kv.1 = k
      · have hck : names.contains k.2 = true := by rw [← hkk]; exact hk
        rw [if_pos hck, if_pos hck]
      · by_cases hc2 : names.contains k.2 = true
        · rw [if_pos hc2, if_pos hc2]
        · rw [if_neg hc2, if_neg hc2, cacheFind_cons_neg hkk]
    · have hkf : names.contains kv.1.2 = false := by simpa using hk
      rw [if_pos (by rw [hkf]; rfl)]
      by_cases hkk : kv.1 = k
      · have hck : names.contains k.2 = false := by rw [← hkk]; exact hkf
        rw [if_neg (by rw [hck]; simp), cacheFind_cons_pos hkk, cacheFind_cons_pos hkk]
      · rw [cacheFind_cons_neg hkk, ih]
        by_cases hc2 : names.contains k.2 = true
        · rw [if_pos hc2, if_pos hc2]
        · rw [if_neg hc2, if_neg hc2, cacheFind_cons_neg hkk]

theorem deregisterFS_rest (st : FSState) (s : String) :
    (deregisterFS st s).registry.rest = st.registry.rest := by
  unfold deregisterFS
  cases layerFind st.registry.top s <;> rfl

theorem registerHandlerFS_rest (st : FSState) (s : String) (h : NamedHandler)
    (ow : Bool) : (registerHandlerFS st s h ow).2.registry.rest = st.registry.rest := by
  unfold registerHandlerFS
  cases hr : regFind st.registry s with
  | some h0 =>
      cases ow with
      | false =>
          by_cases hh : h0.hid = h.hid
          · simp [hh]
          · simp [hh]
      | true => simp [deregisterFS_rest]
  | none =>
      cases ow with
      | false => simp [deregisterFS_rest]
      | true => simp [deregisterFS_rest]

theorem retrieveFS_registry (st : FSState) (d : String) :
    (retrieveFS st d).2.registry = st.registry := by
  unfold retrieveFS
  cases listFind st.datum_cache d with
  | some v => rfl
  | none =>
      simp only []
      cases st.datums.find? (fun x => x.datum_id = d) with
      | none => rfl
      | some dd =>
          simp only []
          cases hs : getSpecHandler st dd.resource with
          | error e => rfl
          | ok p =>
              obtain ⟨_, _, _, _, h5, _, _, _, _⟩ :=
                @getSpecHandler_pres st dd.resource p.1 p.2 (by rw [hs])
              simpa using h5

mutual

theorem runOp_rest (op : FSOp) : ∀ st : FSState,
    (runOp op st).1.registry.rest = st.registry.rest := by
  cases op with
  | register s h ow =>
      intro st
      show (match registerHandlerFS st s h ow with
            | (.ok _, st1) => (st1, true)
            | (.error _, st1) => (st1, false)).1.registry.rest = st.registry.rest
      cases hr : registerHandlerFS st s h ow with
      | mk res st1 =>
          have := registerHandlerFS_rest st s h ow
          rw [hr] at this
          cases res <;> exact this
  | deregister s => intro st; exact deregisterFS_rest st s
  | getHandler u =>
      intro st
      show (match getSpecHandler st u with
            | .error _ => (st, false)
            | .ok (_, st1) => (st1, true)).1.registry.rest = st.registry.rest
      cases hs : getSpecHandler st u with
      | error e => rfl
      | ok p =>
          obtain ⟨_, _, _, _, h5, _, _, _, _⟩ :=
            @getSpecHandler_pres st u p.1 p.2 (by rw [hs])
          simp [h5]
  | retrieveOp d =>
      intro st
      show (match retrieveFS st d with
            | (.error _, st1) => (st1, false)
            | (.ok _, st1) => (st1, true)).1.registry.rest = st.registry.rest
      cases hr : retrieveFS st d with
      | mk res st1 =>
          have h1 := retrieveFS_registry st d
          rw [hr] at h1
          simp only [] at h1
          cases res <;> (show st1.registry.rest = st.registry.rest; rw [h1])
  | scope temp body =>
      intro st
      rfl

theorem runOps_rest (ops : List FSOp) : ∀ st : FSState,
    (runOps ops st).1.registry.rest = st.registry.rest := by
  cases ops with
  | nil => intro st; rfl
  | cons op t =>
      intro st
      show (match runOp op st with
            | (st1, true) => runOps t st1
            | (st1, false) => (st1, false)).1.registry.rest = st.registry.rest
      cases hr : runOp op st with
      | mk st1 b =>
          have h1 := runOp_rest op st
          rw [hr] at h1
          cases b with
          | true =>
              have h2 := runOps_rest t st1
              simp only []
              rw [h2, h1]
          | false => exact h1

end

/-! ## Witness fixtures -/

/-- A handler class that returns the path it was constructed with
(the `local_handler` of the repository's `test_root` test). -/
def wPathHandler : NamedHandler :=
  { hid := 1, name := "local_handler"
    construct := fun rpath _ =>
      { call := fun _ => .jstr rpath, fileList := fun _ => [] } }

/-- A second, distinct handler class. -/
def wOtherHandler : NamedHandler :=
  { hid := 2, name := "other_handler"
    construct := fun rpath _ =>
      { call := fun _ => .jstr rpath, fileList := fun _ => [] } }

/-- The resource of the spec's concrete scenario:
`{spec: "syn-mod", resource_path: "foo", root: "bar"}`. -/
def wRes : Resource :=
  { uid := "u1", spec := "syn-mod", resource_path := "foo", root := "bar"
    resource_kwargs := [] }

/-- The datum of the spec's concrete scenario. -/
def wDat : Datum := { datum_id := "d1", resource := "u1", datum_kwargs := [] }

/-- A store holding the concrete scenario, with the path-returning
handler registered for `syn-mod`. -/
def wSt : FSState :=
  { version := 1
    resources := [wRes]
    datums := [wDat]
    updates := []
    registry := { top := [("syn-mod", wPathHandler)], rest := [] }
    handler_cache := []
    resource_cache := []
    datum_cache := []
    root_map := []
    files := []
    clock := 0 }

/-! ## Claims -/

/-- C1: for every inserted (resource, datum) pair whose spec has a
registered handler and whose cache slots are fresh, `retrieve(datum_id)`
returns the value computed by the handler constructed with
`path = join(root_map.get(root, root), resource_path)` and
`resource_kwargs`, called with the datum's `datum_kwargs`. -/
theorem c1_retrieve_handler_value (st : FSState) (did : String) (d : Datum)
    (r : Resource) (nh : NamedHandler)
    (h1 : listFind st.datum_cache did = none)
    (h2 : st.datums.find? (fun x => x.datum_id = did) = some d)
    (h3 : listFind st.resource_cache d.resource = none)
    (h4 : findRes st.resources d.resource = some r)
    (h5 : regFind st.registry r.spec = some nh)
    (h6 : cacheFind st.handler_cache (r.uid, nh.name) = none) :
    (retrieveFS st did).1 = .ok ((nh.construct
        (pyJoinS (lookupD st.root_map r.root r.root) r.resource_path)
        r.resource_kwargs).call d.datum_kwargs) := by
  unfold retrieveFS
  rw [h1, h2]
  simp only []
  unfold getSpecHandler
  rw [h3, h4]
  simp only []
  rw [h5]
  simp only []
  rw [h6]
  simp only []
  by_cases hr0 : lookupD st.root_map r.root r.root = ""
  · rw [if_neg (by simp [hr0]), hr0, pyJoinS_empty_left]
  · rw [if_pos hr0]

/-- C1 witness: the spec's concrete scenario — resource
`{spec:"syn-mod", resource_path:"foo", root:"bar"}`, datum `d1`,
path-returning handler — retrieves the string `bar/foo`. -/
theorem c1_witness : (retrieveFS wSt "d1").1 = .ok (.jstr "bar/foo") := by
  have h := c1_retrieve_handler_value wSt "d1" wDat wRes wPathHandler
    rfl rfl rfl rfl rfl rfl
  rw [h]
  decide

instance (xs : List PStr) : Decidable (GoodSegs xs) := by
  unfold GoodSegs; infer_instance

/-- C2 counterexample: the resource `{root: "a", resource_path: "/b"}`
(an absolute `resource_path`) with `shift = 0` — inside the legal range
`[-1, 1]` — produces the pair `("/a", "b")`, whose rejoining `/a/b`
differs from the original joined absolute path `/b`. -/
theorem c2_counterexample :
    (-((segsOf "a".data).length : Int) ≤ 0 ∧
      (0 : Int) ≤ ((segsOf "/b".data).length : Int)) ∧
    shiftRootPaths "a".data "/b".data 0 =
      .ok { new_root := "/a".data, new_rpath := "b".data, logged := 1 } ∧
    rejoin "/a".data "b".data ≠ rejoin "a".data "/b".data := by
  decide

/-- C2 (amended): for a resource whose `root` and `resource_path` are in
normal form (root = optional single leading separator plus
separator-joined nonempty segments, resource_path = separator-joined
nonempty segments), `shift_root` succeeds for every shift in
`[-len(root_segments), +len(resource_path_segments)]` and the updated
record's `root`/`resource_path` rejoin to the original joined path;
any shift outside that range fails and leaves the store unchanged. -/
theorem c2_shift_root_path_invariant (st : FSState) (r : Resource) (a : Bool)
    (rs ps : List PStr) (shift : Int)
    (h0 : st.version ≠ 0)
    (h1 : findRes st.resources r.uid = some r)
    (h2 : GoodSegs rs) (h3 : GoodSegs ps)
    (h4 : r.root.data = absPre a ++ safeJoin rs)
    (h5 : r.resource_path.data = safeJoin ps) :
    ((-(rs.length : Int) ≤ shift ∧ shift ≤ (ps.length : Int)) →
      (shiftRootFS st (.uid r.uid) shift).1 = .ok () ∧
      ∃ r2, findRes (shiftRootFS st (.uid r.uid) shift).2.resources r.uid
          = some r2 ∧
        rejoin r2.root.data r2.resource_path.data
          = rejoin r.root.data r.resource_path.data) ∧
    (((ps.length : Int) < shift ∨ shift < -(rs.length : Int)) →
      (shiftRootFS st (.uid r.uid) shift).1 = .error .shiftRange ∧
      (shiftRootFS st (.uid r.uid) shift).2 = st) := by
  have hres : resourceGivenUid st (.uid r.uid) = .ok r := by
    unfold resourceGivenUid
    rw [show residUid (.uid r.uid) = r.uid from rfl, h1]
  have hres2 : resourceGivenUid st (.doc r) = .ok r := by
    unfold resourceGivenUid
    rw [show residUid (.doc r) = r.uid from rfl, h1]
  constructor
  · rintro ⟨hlo, hhi⟩
    obtain ⟨out, hok, hrej⟩ := shiftRootPaths_ok a rs ps shift h2 h3 hlo hhi
    have hpaths : shiftRootPaths r.root.data r.resource_path.data shift
        = .ok out := by rw [h4, h5]; exact hok
    unfold shiftRootFS
    rw [if_neg h0, hres]
    simp only []
    rw [hres2]
    simp only []
    rw [if_neg (by simp), hpaths]
    simp only []
    refine ⟨by trivial, ?_⟩
    refine ⟨{ r with root := ⟨out.new_root⟩, resource_path := ⟨out.new_rpath⟩ }, ?_, ?_⟩
    · exact findRes_replaceRes h1 rfl
    · show rejoin out.new_root out.new_rpath = _
      rw [hrej, ← h4, ← h5]
  · intro hout
    have hlen : ((segsOf r.resource_path.data).length : Int) < shift ∨
        shift < -((segsOf r.root.data).length : Int) := by
      rw [h5, segsOf_safeJoin ps h3, h4, segsOf_absPre_safeJoin a rs h2]
      exact hout
    obtain ⟨msg, herr⟩ := shiftRootPaths_err _ _ _ hlen
    unfold shiftRootFS
    rw [if_neg h0, hres]
    simp only []
    rw [hres2]
    simp only []
    rw [if_neg (by simp), herr]
    exact ⟨rfl, rfl⟩

/-- A store holding the spec's shift scenario resource
(`root = "a/b"`, `resource_path = "c/d"`). -/
def c2Res : Resource :=
  { uid := "u2", spec := "syn-mod", resource_path := "c/d", root := "a/b"
    resource_kwargs := [] }

/-- Store for the C2 witness. -/
def c2St : FSState :=
  { version := 1, resources := [c2Res], datums := [], updates := []
    registry := { top := [], rest := [] }, handler_cache := []
    resource_cache := [], datum_cache := [], root_map := [], files := []
    clock := 0 }

/-- C2 witness: the spec's concrete shift scenario: `root="a/b"`,
`resource_path="c/d"`, `shift=1` succeeds and the new split rejoins to
`a/b/c/d`. -/
theorem c2_witness :
    (shiftRootFS c2St (.uid c2Res.uid) 1).1 = .ok () ∧
    ∃ r2, findRes (shiftRootFS c2St (.uid c2Res.uid) 1).2.resources c2Res.uid
        = some r2 ∧
      rejoin r2.root.data r2.resource_path.data
        = rejoin c2Res.root.data c2Res.resource_path.data := by
  have h := (c2_shift_root_path_invariant c2St c2Res false
      ["a".data, "b".data] ["c".data, "d".data] 1
      (by decide) (by decide) (by decide) (by decide) (by decide) (by decide)).1
    ⟨by decide, by decide⟩
  exact h

/-- Database-held resource for the C3 scenario. -/
def c3Res : Resource :=
  { uid := "u3", spec := "syn-mod", resource_path := "b", root := "a"
    resource_kwargs := [] }

/-- A stale caller-held snapshot of the same resource: same uid,
different `root`. -/
def c3Stale : Resource := { c3Res with root := "stale" }

/-- Store for the C3 scenario. -/
def c3St : FSState :=
  { version := 1, resources := [c3Res], datums := [], updates := []
    registry := { top := [], rest := [] }, handler_cache := []
    resource_cache := [], datum_cache := [], root_map := [], files := []
    clock := 0 }

/-- C3: the snapshot check in `shift_root` is vacuous.  Line 561
(`resource = self.resource_given_uid(resource_or_uid)`) replaces the
caller-supplied snapshot with the database document before the
comparison at lines 568-573, so the comparison always compares the
database document with a re-fetch of itself: re-fetching a fetched
document returns it unchanged (first conjunct), and a call with a stale
snapshot — `root` differs from the database — succeeds and commits a
mutation instead of failing (remaining conjuncts). -/
theorem c3_snapshot_check_vacuous :
    (∀ (st : FSState) (x : ResOrUid) (r : Resource),
      resourceGivenUid st x = .ok r → resourceGivenUid st (.doc r) = .ok r) ∧
    c3Stale.root ≠ c3Res.root ∧
    (shiftRootFS c3St (.doc c3Stale) 0).1 = .ok () ∧
    (shiftRootFS c3St (.doc c3Stale) 0).2.updates.length = 1 := by
  refine ⟨fun st x r h => resourceGivenUid_idem h, by decide, by decide, by decide⟩

/-- C3 witness: the re-fetch identity applied at the concrete store. -/
theorem c3_witness : resourceGivenUid c3St (.doc c3Res) = .ok c3Res :=
  c3_snapshot_check_vacuous.1 c3St (.uid "u3") c3Res (by decide)

/-- C5: `copy_files` never modifies the Resources, Datums or
ResourceUpdates collections (first conjunct, on every path including
failures), and when some file of the handler's enumeration does not
start with the resource's current root, it fails with the
consistency-violation error before any file has been copied: the
filesystem is unchanged and no copy event was emitted (second
conjunct). -/
theorem c5_copy_files_read_only_and_root_check :
    (∀ (st : FSState) (x : ResOrUid) (nr : String) (v : Bool),
      (copyFilesFS st x nr v).2.1.resources = st.resources ∧
      (copyFilesFS st x nr v).2.1.datums = st.datums ∧
      (copyFilesFS st x nr v).2.1.updates = st.updates) ∧
    (∀ (st : FSState) (x : ResOrUid) (nr : String) (r : Resource)
        (fl : List String) (f : String),
      st.version ≠ 0 →
      resourceGivenUid st x = .ok r →
      (getFileListFS st (.doc r)).1 = .ok fl →
      f ∈ fl →
      ((if r.root = "" then "/" else r.root).data.isPrefixOf f.data) = false →
      (copyFilesFS st x nr false).1 = .error .consistencyErr ∧
      (copyFilesFS st x nr false).2.1.files = st.files ∧
      (copyFilesFS st x nr false).2.2 = ([] : List Ev)) := by
  constructor
  · exact fun st x nr v => copyFilesFS_collections st x nr v
  · intro st x nr r fl f h0 hres hfl hmem hpre
    obtain ⟨_, _, _, _, _, h6, _, _⟩ := getFileListFS_pres st (.doc r)
    unfold copyFilesFS
    rw [if_neg h0]
    simp only [if_neg (by decide : ¬ (false = true))]
    rw [hres]
    simp only []
    cases hg : getFileListFS st (.doc r) with
    | mk res st1 =>
        rw [hg] at hfl h6
        cases res with
        | error e => exact absurd hfl (by simp)
        | ok fl2 =>
            have hfl2 : fl2 = fl := by simpa using hfl
            subst hfl2
            have hany : (fl2.any (fun g =>
                !((if r.root = "" then "/" else r.root).data.isPrefixOf g.data)))
                = true := by
              rw [List.any_eq_true]
              exact ⟨f, hmem, by rw [hpre]; rfl⟩
            simp only []
            rw [if_pos hany]
            exact ⟨rfl, h6, rfl⟩

/-- A handler whose file listing reports a file outside the resource's
root. -/
def c5Handler : NamedHandler :=
  { hid := 3, name := "bad_lister"
    construct := fun _ _ =>
      { call := fun _ => .jnull, fileList := fun _ => ["elsewhere/x"] } }

/-- Resource for the C5 witness (`root = "bar"`). -/
def c5Res : Resource :=
  { uid := "u5", spec := "spec5", resource_path := "foo", root := "bar"
    resource_kwargs := [] }

/-- Store for the C5 witness. -/
def c5St : FSState :=
  { version := 1, resources := [c5Res], datums := [], updates := []
    registry := { top := [("spec5", c5Handler)], rest := [] }
    handler_cache := [], resource_cache := [], datum_cache := []
    root_map := [], files := ["bar/foo"], clock := 0 }

/-- C5 witness: with a handler listing `elsewhere/x` against root
`bar`, `copy_files` aborts with the consistency violation, touching
neither files nor collections. -/
theorem c5_witness :
    (copyFilesFS c5St (.uid "u5") "newroot" false).1 = .error .consistencyErr ∧
    (copyFilesFS c5St (.uid "u5") "newroot" false).2.1.files = c5St.files ∧
    (copyFilesFS c5St (.uid "u5") "newroot" false).2.2 = ([] : List Ev) := by
  exact c5_copy_files_read_only_and_root_check.2 c5St (.uid "u5") "newroot"
    c5Res ["elsewhere/x"] "elsewhere/x" (by decide) (by decide) rfl
    (by decide) (by decide)

/-- C4: within one `change_root` call the steps are strictly ordered —
all copies first, then the database update (resource replacement plus
the `change_root` ResourceUpdate), then, only when `remove_origin` is
set and the update succeeded, the deletions of the originals, and
finally the cache evictions (first conjunct: the emitted trace for a
successful database round-trip).  When the database update fails, the
exception propagates: no original file is deleted (the filesystem still
holds everything the copy phase wrote), no deletion event exists, and
no ResourceUpdate was appended (remaining conjuncts). -/
theorem c4_change_root_ordering (st : FSState) (x : ResOrUid) (nr : String)
    (ro v : Bool) (r : Resource) (pairs : List (String × String))
    (h1 : resourceGivenUid st x = .ok r)
    (h2 : (copyFilesFS st (.doc r) nr v).1 = .ok pairs) :
    (changeRootFS st x nr ro v true).2.2
        = (pairs.map (fun p => Ev.copied p.1 p.2)) ++ ([Ev.dbUpdated]
          ++ ((if ro then pairs.map (fun p => Ev.deleted p.1) else [])
          ++ [Ev.cachesCleared])) ∧
    (changeRootFS st x nr ro v false).1 = .error .dbFail ∧
    (changeRootFS st x nr ro v false).2.2
        = pairs.map (fun p => Ev.copied p.1 p.2) ∧
    (changeRootFS st x nr ro v false).2.1.files
        = st.files ++ pairs.map (fun p => p.2) ∧
    (changeRootFS st x nr ro v false).2.1.updates = st.updates := by
  obtain ⟨htr, hfiles⟩ := copyFilesFS_ok_parts h2
  obtain ⟨_, _, hupd⟩ := copyFilesFS_collections st (.doc r) nr v
  unfold changeRootFS
  rw [h1]
  simp only []
  cases hcf : copyFilesFS st (.doc r) nr v with
  | mk res p2 =>
      cases p2 with
      | mk st1 tr =>
          rw [hcf] at h2 htr hfiles hupd
          simp only [] at h2 htr hfiles hupd
          cases res with
          | error e => exact absurd h2 (by simp)
          | ok pairs2 =>
              have hp : pairs2 = pairs := by simpa using h2
              subst hp
              subst htr
              refine ⟨?_, ?_, ?_, ?_, ?_⟩ <;>
                simp [hfiles, hupd, List.append_assoc]

/-- A handler listing one file under the resource's root. -/
def c4Handler : NamedHandler :=
  { hid := 4, name := "one_file_lister"
    construct := fun _ _ =>
      { call := fun _ => .jnull, fileList := fun _ => ["bar/data.h5"] } }

/-- Resource for the C4 witness. -/
def c4Res : Resource :=
  { uid := "u4", spec := "spec4", resource_path := "data.h5", root := "bar"
    resource_kwargs := [] }

/-- Store for the C4 witness. -/
def c4St : FSState :=
  { version := 1, resources := [c4Res], datums := [], updates := []
    registry := { top := [("spec4", c4Handler)], rest := [] }
    handler_cache := [], resource_cache := [], datum_cache := []
    root_map := [], files := ["bar/data.h5"], clock := 0 }

/-- C4 witness: the concrete relocation emits
copy, database update, deletion, eviction in that order, and with a
failing database round-trip no deletion happens. -/
theorem c4_witness :
    (changeRootFS c4St (.uid "u4") "newroot" true false true).2.2
        = ([Ev.copied "bar/data.h5" "newroot/data.h5"] ++ ([Ev.dbUpdated]
          ++ ([Ev.deleted "bar/data.h5"] ++ [Ev.cachesCleared]))) ∧
    (changeRootFS c4St (.uid "u4") "newroot" true false false).1
        = .error .dbFail ∧
    (changeRootFS c4St (.uid "u4") "newroot" true false false).2.1.files
        = c4St.files ++ ["newroot/data.h5"] := by
  have h := c4_change_root_ordering c4St (.uid "u4") "newroot" true false
    c4Res [("bar/data.h5", "newroot/data.h5")] (by decide) (by decide)
  exact ⟨by rw [h.1]; decide, h.2.1, by rw [h.2.2.2.1]; decide⟩

/-- C6: every successful `shift_root` (first conjunct) and `change_root`
(second conjunct) appends exactly one ResourceUpdate whose `old`/`new`
snapshots are the database-held resource immediately before and after
the call; `get_history` yields all of a resource's update records in
ascending time order (third conjunct) and fails for schema version 0
(fourth conjunct). -/
theorem c6_audit_log :
    (∀ (st : FSState) (x : ResOrUid) (shift : Int),
      (shiftRootFS st x shift).1 = .ok () →
      ∃ u, (shiftRootFS st x shift).2.updates = st.updates ++ [u] ∧
        u.cmd = "shift_root" ∧
        resourceGivenUid st (.uid u.resource) = .ok u.old ∧
        findRes (shiftRootFS st x shift).2.resources u.resource = some u.new) ∧
    (∀ (st : FSState) (x : ResOrUid) (nr : String) (ro v : Bool),
      (changeRootFS st x nr ro v true).1 = .ok () →
      ∃ u, (changeRootFS st x nr ro v true).2.1.updates = st.updates ++ [u] ∧
        u.cmd = "change_root" ∧
        resourceGivenUid st (.uid u.resource) = .ok u.old ∧
        findRes (changeRootFS st x nr ro v true).2.1.resources u.resource
          = some u.new) ∧
    (∀ (st : FSState) (uid : String), st.version ≠ 0 →
      ∃ l, getHistoryFS st uid = .ok l ∧
        l.Perm (st.updates.filter (fun u => u.resource = uid)) ∧
        List.Sorted ruTimeLe l) ∧
    (∀ (st : FSState) (uid : String), st.version = 0 →
      getHistoryFS st uid = .error .notImplErr) := by
  refine ⟨?_, ?_, ?_, ?_⟩
  · intro st x shift h
    unfold shiftRootFS at h ⊢
    by_cases h0 : st.version = 0
    · rw [if_pos h0] at h; exact absurd h (by simp)
    · rw [if_neg h0] at h ⊢
      cases hr1 : resourceGivenUid st x with
      | error e => rw [hr1] at h; exact absurd h (by simp)
      | ok resource =>
          (try rw [hr1] at h); (try rw [hr1])
          simp only [] at h ⊢
          cases hr2 : resourceGivenUid st (.doc resource) with
          | error e => rw [hr2] at h; exact absurd h (by simp)
          | ok actual =>
              (try rw [hr2] at h); (try rw [hr2])
              simp only [] at h ⊢
              by_cases hne : actual = resource
              · rw [if_neg (by simp [hne])] at h ⊢
                cases hsp : shiftRootPaths resource.root.data
                    resource.resource_path.data shift with
                | error e => rw [hsp] at h; exact absurd h (by simp)
                | ok out =>
                    (try rw [hsp] at h); (try rw [hsp])
                    simp only [] at h ⊢
                    have huid : actual.uid = resource.uid := by rw [hne]
                    have hfind : findRes st.resources actual.uid = some actual := by
                      have h2 := hr2
                      unfold resourceGivenUid at h2
                      cases hf : findRes st.resources (residUid (.doc resource)) with
                      | none => rw [hf] at h2; exact absurd h2 (by simp)
                      | some r0 =>
                          rw [hf] at h2
                          simp only [Except.ok.injEq] at h2
                          rw [huid]
                          rw [h2] at hf
                          exact hf
                    refine ⟨_, rfl, rfl, ?_, ?_⟩
                    · unfold resourceGivenUid
                      rw [show residUid (.uid actual.uid) = actual.uid from rfl,
                        hfind]
                    · show findRes (replaceRes st.resources _) actual.uid = _
                      exact findRes_replaceRes hfind (by rw [huid])
              · rw [if_pos (by simpa using hne)] at h
                exact absurd h (by simp)
  · intro st x nr ro v h
    unfold changeRootFS at h ⊢
    cases hr1 : resourceGivenUid st x with
    | error e => rw [hr1] at h; exact absurd h (by simp)
    | ok resource =>
        (try rw [hr1] at h); (try rw [hr1])
        simp only [] at h ⊢
        obtain ⟨hres, _, hupd⟩ := copyFilesFS_collections st (.doc resource) nr v
        cases hcf : copyFilesFS st (.doc resource) nr v with
        | mk res p2 =>
            cases p2 with
            | mk st1 tr =>
                (try rw [hcf] at h)
                rw [hcf] at hres hupd
                simp only [] at hres hupd
                cases res with
                | error e => exact absurd h (by simp)
                | ok pairs =>
                    simp only [] at h ⊢
                    have hfind : findRes st.resources resource.uid = some resource := by
                      have h2 := resourceGivenUid_idem hr1
                      unfold resourceGivenUid at h2
                      cases hf : findRes st.resources (residUid (.doc resource)) with
                      | none => rw [hf] at h2; exact absurd h2 (by simp)
                      | some r0 =>
                          rw [hf] at h2
                          simp only [Except.ok.injEq] at h2
                          rw [h2] at hf
                          exact hf
                    refine ⟨⟨resource.uid, resource, { resource with root := nr },
                      st1.clock, "change_root",
                      [("remove_origin", .jbool ro), ("verify", .jbool v),
                       ("new_root", .jstr nr)]⟩, ?_, rfl, ?_, ?_⟩
                    · cases ro <;> simp [hupd, updateResource]
                    · unfold resourceGivenUid
                      rw [show residUid (.uid resource.uid) = resource.uid from rfl,
                        hfind]
                    · have hf1 : findRes st1.resources resource.uid
                          = some resource := by rw [hres]; exact hfind
                      cases ro <;> exact findRes_replaceRes hf1 rfl
  · intro st uid h0
    refine ⟨_, by unfold getHistoryFS; rw [if_neg h0], ?_, ?_⟩
    · exact List.perm_insertionSort ruTimeLe _
    · exact List.sorted_insertionSort ruTimeLe _
  · intro st uid h0
    unfold getHistoryFS
    rw [if_pos h0]

/-- A schema-version-0 store. -/
def c6V0St : FSState :=
  { version := 0, resources := [], datums := [], updates := []
    registry := { top := [], rest := [] }, handler_cache := []
    resource_cache := [], datum_cache := [], root_map := [], files := []
    clock := 0 }

/-- C6 witness: the audit-log facts instantiated on the concrete shift
and relocation scenarios, plus the version-0 refusal. -/
theorem c6_witness :
    (∃ u, (shiftRootFS c2St (.uid "u2") 1).2.updates = c2St.updates ++ [u] ∧
      u.cmd = "shift_root" ∧
      resourceGivenUid c2St (.uid u.resource) = .ok u.old ∧
      findRes (shiftRootFS c2St (.uid "u2") 1).2.resources u.resource
        = some u.new) ∧
    (∃ u, (changeRootFS c4St (.uid "u4") "newroot" true false true).2.1.updates
        = c4St.updates ++ [u] ∧
      u.cmd = "change_root" ∧
      resourceGivenUid c4St (.uid u.resource) = .ok u.old ∧
      findRes (changeRootFS c4St (.uid "u4") "newroot" true false
        true).2.1.resources u.resource = some u.new) ∧
    (∃ l, getHistoryFS c2St "u2" = .ok l ∧
      l.Perm (c2St.updates.filter (fun u => u.resource = "u2")) ∧
      List.Sorted ruTimeLe l) ∧
    getHistoryFS c6V0St "zz" = .error .notImplErr := by
  exact ⟨c6_audit_log.1 c2St (.uid "u2") 1 (by decide),
    c6_audit_log.2.1 c4St (.uid "u4") "newroot" true false (by decide),
    c6_audit_log.2.2.1 c2St "u2" (by decide),
    c6_audit_log.2.2.2 c6V0St "zz" rfl⟩

/-- `handler_reg.new_child(temp)`: push a temporary overlay onto the
registry. -/
def pushOverlay (temp : RegLayer) (st : FSState) : FSState :=
  { st with registry := { top := temp
                          rest := st.registry.top :: st.registry.rest } }

/-- C7 counterexample: with the base registry binding `syn-mod` to
`local_handler` and an empty cache, a `handler_context` overlay adding
an unrelated spec is entered and the body resolves a handler through
the *base* binding; on exit that instance — constructed under the
overlay — is still cached, because eviction only matches the overlay's
constructor names. -/
theorem c7_counterexample :
    (cacheFind wSt.handler_cache ("u1", "local_handler")).isSome = false ∧
    (cacheFind ((runOp (.scope [("tmp-spec", wOtherHandler)]
        [.getHandler "u1"]) wSt).1).handler_cache
      ("u1", "local_handler")).isSome = true := by
  decide

/-- C7 (amended): on exit from a `handler_context` scope — normal or
after an error, and under arbitrary nested scopes in the body — the
registry is restored exactly to its entry value (the body can only
touch the overlay: the stashed layers are preserved, second conjunct),
and the handler cache equals the post-body cache with exactly those
entries evicted whose constructor name matches a constructor of the
exit-time overlay; entries with other names — whether cached before the
scope or constructed under it via outer-layer handlers — remain. -/
theorem c7_handler_context_restore :
    ∀ (temp : RegLayer) (body : List FSOp) (st : FSState),
      (runOp (.scope temp body) st).1.registry = st.registry ∧
      (runOps body (pushOverlay temp st)).1.registry.rest
        = st.registry.top :: st.registry.rest ∧
      (∀ k : String × String,
        cacheFind (runOp (.scope temp body) st).1.handler_cache k
          = if ((runOps body (pushOverlay temp st)).1.registry.top.map
                (fun kv => kv.2.name)).contains k.2 = true
            then none
            else cacheFind (runOps body (pushOverlay temp st)).1.handler_cache k) := by
  intro temp body st
  refine ⟨rfl, runOps_rest body (pushOverlay temp st), ?_⟩
  intro k
  exact cacheFind_filter
    ((runOps body (pushOverlay temp st)).1.handler_cache)
    ((runOps body (pushOverlay temp st)).1.registry.top.map (fun kv => kv.2.name)) k

/-- C8: mapping-valued fields round-trip through the backends.  The
JSON codec is the identity on structural values (first conjunct); on
the SQLite backend, inserting a datum / resource / audit row serializes
the mapping fields and `find_one`/`find` deserializes them back to the
original structural form (middle conjuncts); the document backend
stores and returns them natively (last conjunct). -/
theorem c8_kwargs_round_trip :
    (∀ v : JVal, loadsS (dumpsS v) = some v) ∧
    (∀ (tbl : List DatumRow) (d : Datum),
      (datumInsertOne tbl d).1 = .ok () →
      datumFindOne (datumInsertOne tbl d).2 d.datum_id
        = some (d.datum_id, d.resource, some (.jobj d.datum_kwargs))) ∧
    (∀ (tbl : List ResourceRow) (r : Resource),
      (resourceInsertOne tbl r).1 = .ok () →
      resourceFindOne (resourceInsertOne tbl r).2 r.uid
        = some (r.uid, r.spec, r.resource_path, r.root,
            some (.jobj r.resource_kwargs))) ∧
    (∀ u : RUpdate,
      updatesFind (updatesInsertOne [] u) u.resource
        = [{ resource := u.resource, old := some (resourceToJ u.old)
             new := some (resourceToJ u.new), time := u.time, cmd := u.cmd
             cmd_kwargs := some (.jobj u.cmd_kwargs) }]) ∧
    (∀ (tbl : List Datum) (d : Datum),
      (mongoInsertOne tbl d).1 = .ok () →
      mongoFindOne (mongoInsertOne tbl d).2 d.datum_id = some d) := by
  refine ⟨loadsS_dumpsS, ?_, ?_, ?_, ?_⟩
  · intro tbl d h
    unfold datumInsertOne at h ⊢
    by_cases hdup : tbl.any (fun r => r.datum_id = d.datum_id)
    · rw [if_pos hdup] at h; exact absurd h (by simp)
    · rw [if_neg hdup] at h ⊢
      have hnone : tbl.find? (fun r => r.datum_id = d.datum_id) = none := by
        rw [List.find?_eq_none]
        intro x hx hpx
        exact hdup (List.any_eq_true.mpr ⟨x, hx, hpx⟩)
      unfold datumFindOne
      rw [find?_append_of_none _ hnone]
      rw [List.find?_cons_of_pos _ (by simp)]
      simp [loadsS_dumpsS]
  · intro tbl r h
    unfold resourceInsertOne at h ⊢
    by_cases hdup : tbl.any (fun row => row.uid = r.uid)
    · rw [if_pos hdup] at h; exact absurd h (by simp)
    · rw [if_neg hdup] at h ⊢
      have hnone : tbl.find? (fun row => row.uid = r.uid) = none := by
        rw [List.find?_eq_none]
        intro x hx hpx
        exact hdup (List.any_eq_true.mpr ⟨x, hx, hpx⟩)
      unfold resourceFindOne
      rw [find?_append_of_none _ hnone]
      rw [List.find?_cons_of_pos _ (by simp)]
      simp [loadsS_dumpsS]
  · intro u
    simp only [updatesInsertOne, List.nil_append]
    unfold updatesFind
    rw [List.filter_cons_of_pos (by simp)]
    simp [List.insertionSort, List.orderedInsert, loadsS_dumpsS]
  · intro tbl d h
    unfold mongoInsertOne at h ⊢
    by_cases hdup : tbl.any (fun r => r.datum_id = d.datum_id)
    · rw [if_pos hdup] at h; exact absurd h (by simp)
    · rw [if_neg hdup] at h ⊢
      have hnone : tbl.find? (fun r => r.datum_id = d.datum_id) = none := by
        rw [List.find?_eq_none]
        intro x hx hpx
        exact hdup (List.any_eq_true.mpr ⟨x, hx, hpx⟩)
      unfold mongoFindOne
      rw [find?_append_of_none _ hnone]
      rw [List.find?_cons_of_pos _ (by simp)]

/-- A sample structural mapping value exercising every `JVal` form. -/
def c8Val : KW :=
  [("shape", .jarr [.jint 25, .jint 32]), ("label", .jstr "x\ny"),
   ("flag", .jbool true), ("offset", .jint (-7)), ("extra", .jnull),
   ("nested", .jobj [("k", .jstr "v")])]

/-- C8 witness: the round trips instantiated on a concrete datum with a
mapping exercising every value form. -/
theorem c8_witness :
    loadsS (dumpsS (.jobj c8Val)) = some (.jobj c8Val) ∧
    datumFindOne (datumInsertOne []
        { datum_id := "d8", resource := "u8", datum_kwargs := c8Val }).2 "d8"
      = some ("d8", "u8", some (.jobj c8Val)) ∧
    mongoFindOne (mongoInsertOne []
        { datum_id := "d8", resource := "u8", datum_kwargs := c8Val }).2 "d8"
      = some { datum_id := "d8", resource := "u8", datum_kwargs := c8Val } := by
  exact ⟨c8_kwargs_round_trip.1 (.jobj c8Val),
    c8_kwargs_round_trip.2.1 []
      { datum_id := "d8", resource := "u8", datum_kwargs := c8Val } (by decide),
    c8_kwargs_round_trip.2.2.2.2 []
      { datum_id := "d8", resource := "u8", datum_kwargs := c8Val } (by decide)⟩

/-- C9: inserting a datum whose `datum_id` is already present fails
with the duplicate-key error and leaves the stored table unchanged:
on the SQLite backend the `datum_id TEXT PRIMARY KEY` constraint raises
`IntegrityError` and the transaction rolls back (first conjunct); on
the document backend the unique index on `datum_id` rejects the insert
likewise (second conjunct). -/
theorem c9_duplicate_datum_id :
    (∀ (tbl : List DatumRow) (d : Datum) (r0 : DatumRow),
      r0 ∈ tbl → r0.datum_id = d.datum_id →
      (datumInsertOne tbl d).1 = .error .integrityError ∧
      (datumInsertOne tbl d).2 = tbl) ∧
    (∀ (tbl : List Datum) (d d0 : Datum),
      d0 ∈ tbl → d0.datum_id = d.datum_id →
      (mongoInsertOne tbl d).1 = .error .integrityError ∧
      (mongoInsertOne tbl d).2 = tbl) := by
  constructor
  · intro tbl d r0 hmem hid
    have hany : tbl.any (fun r => r.datum_id = d.datum_id) = true :=
      List.any_eq_true.mpr ⟨r0, hmem, by simp [hid]⟩
    unfold datumInsertOne
    rw [if_pos hany]
    exact ⟨rfl, rfl⟩
  · intro tbl d d0 hmem hid
    have hany : tbl.any (fun r => r.datum_id = d.datum_id) = true :=
      List.any_eq_true.mpr ⟨d0, hmem, by simp [hid]⟩
    unfold mongoInsertOne
    rw [if_pos hany]
    exact ⟨rfl, rfl⟩

/-- The already-stored row for the C9 witness. -/
def c9Row : DatumRow :=
  { datum_id := "d9", datum_kwargs := "\x7b\x7d", resource := "u9" }

/-- The duplicate datum for the C9 witness. -/
def c9Dat : Datum := { datum_id := "d9", resource := "u9", datum_kwargs := [] }

/-- C9 witness: a second insert of datum id `d9` fails on the SQLite
backend and the table is unchanged. -/
theorem c9_witness :
    (datumInsertOne [c9Row] c9Dat).1 = .error .integrityError ∧
    (datumInsertOne [c9Row] c9Dat).2 = [c9Row] := by
  exact c9_duplicate_datum_id.1 [c9Row] c9Dat c9Row (by decide) (by decide)

/-- C10: the schema version of a `FileStoreRO` is fixed at
construction — `__init__` assigns it once through the `version` setter,
and any later assignment finds `_api` populated and raises
RuntimeError, leaving the stored version and the selected
version-dispatched api module unchanged. -/
theorem c10_version_fixed_at_construction :
    ∀ (v w : Nat) (s : VersionState),
      initVersion v = (.ok (), s) →
      setVersion s w = (.error .runtimeErr, s) := by
  intro v w s h
  unfold initVersion setVersion at h
  rw [if_neg (by simp)] at h
  by_cases hv : v = 0 ∨ v = 1
  · rw [if_pos hv] at h
    simp only [Prod.mk.injEq] at h
    have hs : s = { _api := some v, _version := v } := h.2.symm
    subst hs
    unfold setVersion
    rw [if_pos (by simp)]
  · rw [if_neg hv] at h
    simp only [Prod.mk.injEq] at h
    exact absurd h.1 (by simp)

/-- C10 witness: construct at version 1, then try to reassign. -/
theorem c10_witness :
    setVersion { _api := some 1, _version := 1 } 0
      = (.error .runtimeErr, { _api := some 1, _version := 1 }) :=
  c10_version_fixed_at_construction 1 0
    { _api := some 1, _version := 1 } (by decide)
